import Mathlib

/-!
# Verification of the autocomplete engine core

A shallow embedding, in Lean 4, of the search core of the `auto_complete`
repository (`src/backend/normalize.py`, `src/backend/search.py`,
`src/backend/DB/index.py`, `src/backend/DB/corpusdb.py`,
`src/autocomplete/acx.py`), together with theorems settling the
specification claims about it.

Python strings are modelled as Lean `String`/`List Char` (Python indexes
strings by code point, as `List Char` does).  Python `bytes` values are
modelled as `List Nat` with entries below 256.  Python integers are `Nat`
or `Int`; scores, which can be negative, are `Int`.

The behaviour of the Python built-ins `str.isspace`, `str.isalnum`,
`str.isalpha`, `str.isdigit`, `str.casefold` and `str.lower` is table
driven (Unicode).  The model below reproduces those tables exactly on the
ASCII range and on the specific non-ASCII characters exercised by this
development (`ß` U+00DF, `İ` U+0130, the combining dot above U+0307);
every other character is treated as a symbol (not alphanumeric, not
whitespace, case-folding to itself), which is the behaviour the normalizer
gives to punctuation.
-/

/-- Python `str.isspace` on a single character (ASCII whitespace; none of
the non-ASCII characters in this development's repertoire is whitespace). -/
def pyIsSpace (c : Char) : Bool :=
  c = ' ' || c = '\t' || c = '\n' || c = '\x0b' || c = '\x0c' || c = '\r'

/-- Python `str.isalnum` on a single character: ASCII letters and digits,
plus the two non-ASCII letters in the modelled repertoire.  The combining
dot above U+0307 is a mark, not alphanumeric. -/
def pyIsAlnum (c : Char) : Bool :=
  ('0' ≤ c && c ≤ '9') || ('a' ≤ c && c ≤ 'z') || ('A' ≤ c && c ≤ 'Z')
    || c = 'ß' || c = 'İ'

/-- Python `str.isalpha` on a single character. -/
def pyIsAlpha (c : Char) : Bool :=
  ('a' ≤ c && c ≤ 'z') || ('A' ≤ c && c ≤ 'Z') || c = 'ß' || c = 'İ'

/-- Python `str.isdigit` on a single character (ASCII digits in the
modelled repertoire). -/
def pyIsDigit (c : Char) : Bool :=
  '0' ≤ c && c ≤ '9'

/-- Python `str.casefold` of a single character, as the list of code
points it folds to.  Full case folding is multi-character on `ß`
(which folds to `ss`) and on `İ` (which folds to `i` followed by the
combining dot above U+0307). -/
def pyCasefold (c : Char) : List Char :=
  if 'A' ≤ c && c ≤ 'Z' then [Char.ofNat (c.toNat + 32)]
  else if c = 'ß' then ['s', 's']
  else if c = 'İ' then ['i', '̇']
  else [c]

/-- Python `str.lower` of a single character.  Differs from case folding
on `ß` (which `lower` leaves unchanged); `İ` still lowers to two code
points. -/
def pyLower (c : Char) : List Char :=
  if 'A' ≤ c && c ≤ 'Z' then [Char.ofNat (c.toNat + 32)]
  else if c = 'İ' then ['i', '̇']
  else [c]

/-- A Python regex `\w` word character: alphanumeric or underscore. -/
def reWordChar (c : Char) : Bool :=
  pyIsAlnum c || c = '_'

/-- The ASCII word characters `[A-Za-z0-9_]` of the regex
`_ONLY_WORDCHARS = ^[A-Za-z0-9_]+$` in `search.py`. -/
def asciiWordChar (c : Char) : Bool :=
  ('0' ≤ c && c ≤ '9') || ('a' ≤ c && c ≤ 'z') || ('A' ≤ c && c ≤ 'Z') || c = '_'

/-!
## `normalize.py`

`normalize_and_map` walks the input code points once, keeping the loop
state `(out_chars, mapping, last_was_space, pending_space_orig_index)`.
`out_chars` is a Python list of strings — each appended element is either
a single space or the (possibly multi-character) casefold of one input
character — and the final normalized string is their concatenation, so we
keep it as a `List (List Char)` of emitted chunks.
-/

/-- The loop state of `normalize_and_map`. -/
structure NormState where
  out : List (List Char)
  mapping : List Nat
  lastWasSpace : Bool
  pending : Option Nat
  deriving Repr, DecidableEq

/-- One iteration of the `for orig_i, ch in enumerate(text)` loop of
`normalize_and_map`.  `_is_word_char` in `normalize.py` returns
`ch.isalnum()` (its category branch is unreachable), so word characters
are exactly the alphanumeric ones. -/
def normStep (st : NormState) (origI : Nat) (ch : Char) : NormState :=
  if pyIsSpace ch then
    { st with pending := some (st.pending.getD origI), lastWasSpace := true }
  else if pyIsAlnum ch then
    let st1 :=
      if st.lastWasSpace && !st.out.isEmpty then
        { st with out := st.out ++ [[' ']],
                  mapping := st.mapping ++ [st.pending.getD origI] }
      else st
    { st1 with out := st1.out ++ [pyCasefold ch],
               mapping := st1.mapping ++ [origI],
               lastWasSpace := false,
               pending := none }
  else
    st

/-- The whole loop of `normalize_and_map`, threading the code-point index. -/
def normLoop : List Char → Nat → NormState → NormState
  | [], _, st => st
  | ch :: rest, i, st => normLoop rest (i + 1) (normStep st i ch)

/-- `normalize_and_map(text)`: the normalized string and the
normalized-index → original-index mapping.  The final `if` mirrors the
trailing-space trim (`out_chars[-1] == ' '` compares the last appended
chunk with a one-character space string). -/
def normalizeAndMap (text : String) : String × List Nat :=
  let st := normLoop text.data 0 ⟨[], [], false, none⟩
  let st1 :=
    if st.out.getLast? = some [' '] then
      { st with out := st.out.dropLast, mapping := st.mapping.dropLast }
    else st
  (⟨st1.out.flatten⟩, st1.mapping)

/-- `normalize_only(text)`. -/
def normalizeOnly (text : String) : String :=
  (normalizeAndMap text).1

/-- A character the normalizer passes through unchanged: the space it
emits itself, or an alphanumeric character whose casefold is itself
(names the fixed points of `normStep`, for the idempotence analysis). -/
def normStableChar (c : Char) : Bool :=
  c = ' ' || (pyIsAlnum c && pyCasefold c = [c])

/-!
## `search.py`: penalty tables and one-edit primitives
-/

/-- `_p_incorrect(pos)`: `{1:-5, 2:-4, 3:-3, 4:-2}.get(pos, -1)`. -/
def pIncorrect (pos : Nat) : Int :=
  if pos = 1 then -5 else if pos = 2 then -4 else if pos = 3 then -3
  else if pos = 4 then -2 else -1

/-- `_p_addmiss(pos)`: `{1:-10, 2:-8, 3:-6, 4:-4}.get(pos, -2)`. -/
def pAddmiss (pos : Nat) : Int :=
  if pos = 1 then -10 else if pos = 2 then -8 else if pos = 3 then -6
  else if pos = 4 then -4 else -2

/-- `_REPLACE.get(pos, 1)` (the positive table behind `_replace_penalty`). -/
def replaceTable (pos : Nat) : Int :=
  if pos = 1 then 5 else if pos = 2 then 4 else if pos = 3 then 3
  else if pos = 4 then 2 else 1

/-- `_INSERT_DEL.get(pos, 2)` (the positive table behind `_insdel_penalty`). -/
def insertDelTable (pos : Nat) : Int :=
  if pos = 1 then 10 else if pos = 2 then 8 else if pos = 3 then 6
  else if pos = 4 then 4 else 2

/-- `_replace_penalty(pos1)` = `-(_REPLACE.get(pos1, 1))`. -/
def replacePenalty (pos1 : Nat) : Int := -(replaceTable pos1)

/-- `_insdel_penalty(pos1)` = `-(_INSERT_DEL.get(pos1, 2))`. -/
def insdelPenalty (pos1 : Nat) : Int := -(insertDelTable pos1)

/-- The loop of `_hamming_one`: walk `zip(q, t)` with a 1-based index,
remembering the position of the first difference; a second difference
returns `None`; `diff_pos or None` maps the no-difference case to `None`. -/
def hammingOneAux : List (Char × Char) → Nat → Nat → Option Nat
  | [], _, diffPos => if diffPos = 0 then none else some diffPos
  | (a, b) :: rest, i, diffPos =>
      if a ≠ b then
        if diffPos ≠ 0 then none else hammingOneAux rest (i + 1) i
      else hammingOneAux rest (i + 1) diffPos

/-- `_hamming_one(q, t)`: the 1-based position of the single differing
character of two equal-length strings, else `None`.  (The Python
function asserts `len(q) == len(t)`; `zip` stops at the shorter.) -/
def hammingOne (q t : List Char) : Option Nat :=
  hammingOneAux (q.zip t) 1 0

/-- The `while i < len(q) and j < len(t)` loop of `_one_added_in_query`.
`i` is the number of query characters consumed so far; on a mismatch the
query position advances and the extra position `i + 1` is recorded.  When
the loop ends, a still-unset extra position defaults to `len(q)`, which
equals `i` plus the number of unconsumed query characters. -/
def oneAddedAux : List Char → List Char → Nat → Option Nat → Option Nat
  | [], _, i, extra => some (extra.getD (i + 0))
  | q :: qs, ts, i, extra =>
      match ts with
      | [] => some (extra.getD (i + (q :: qs).length))
      | t :: ts1 =>
          if q = t then oneAddedAux qs ts1 (i + 1) extra
          else
            match extra with
            | some _ => none
            | none => oneAddedAux qs ts (i + 1) (some (i + 1))

/-- `_one_added_in_query(q, t)` (callers guarantee `len(q) == len(t)+1`). -/
def oneAddedInQuery (q t : List Char) : Option Nat :=
  oneAddedAux q t 0 none

/-- The loop of `_one_missing_in_query`: on a mismatch the sentence-window
position advances and the gap position `i + 1` is recorded; a still-unset
gap defaults to `len(q) + 1`. -/
def oneMissingAux : List Char → List Char → Nat → Option Nat → Option Nat
  | qs, [], i, gap => some (gap.getD (i + qs.length + 1))
  | [], _, i, gap => some (gap.getD (i + 0 + 1))
  | q :: qs, t :: ts, i, gap =>
      if q = t then oneMissingAux qs ts (i + 1) gap
      else
        match gap with
        | some _ => none
        | none => oneMissingAux (q :: qs) ts i (some (i + 1))

/-- `_one_missing_in_query(q, t)` (callers guarantee `len(q)+1 == len(t)`). -/
def oneMissingInQuery (q t : List Char) : Option Nat :=
  oneMissingAux q t 0 none

/-- Python `str.find` over code points: the least start index at which
`needle` occurs in `hay` (`none` for Python's `-1`). -/
def pyFind (hay needle : List Char) : Option Nat :=
  (List.range (hay.length + 1)).find? (fun i => (hay.drop i).take needle.length = needle)

/-!
## `search.py`: `_clean` and `score_prefix_1edit`
-/

/-- `_clean(s)`: `s.lower()` then keep only the characters matched by
`[a-z ]`. -/
def pyClean (s : String) : List Char :=
  (s.data.flatMap pyLower).filter (fun ch => ('a' ≤ ch && ch ≤ 'z') || ch = ' ')

/-- The `diffs` list of `score_prefix_1edit`: 1-based positions where the
equal-length cleaned strings differ (`zip` stops at the shorter). -/
def diffPositions (q t : List Char) : List Nat :=
  (List.enumFrom 1 (q.zip t)).filterMap
    (fun p => if p.2.1 ≠ p.2.2 then some p.1 else none)

/-- The `while i < L and q[i] == t[i]` scan of `score_prefix_1edit`: the
length of the common prefix of `q` and `t`. -/
def commonPrefixLen : List Char → List Char → Nat
  | a :: as_, b :: bs => if a = b then commonPrefixLen as_ bs + 1 else 0
  | _, _ => 0

/-- `score_prefix_1edit(query_raw, target_raw)`: `None` when more than one
edit separates the cleaned strings of equal length, or when their lengths
differ by 2 or more; otherwise a numeric score with base
`2 * min(len, len)` and a penalty from the tables. -/
def scorePrefix1edit (queryRaw targetRaw : String) : Option Int :=
  let q := pyClean queryRaw
  let t := pyClean targetRaw
  let base : Int := 2 * (min q.length t.length : Nat)
  if q.length = t.length then
    match diffPositions q t with
    | [] => some base
    | [p] => some (base + pIncorrect p)
    | _ => none
  else if q.length = t.length + 1 || t.length = q.length + 1 then
    some (base + pAddmiss (commonPrefixLen q t + 1))
  else
    none

/-!
## `search.py`: `_best_match_in_sentence`
-/

/-- A sentence record (`backend/models.py`). -/
structure Sentence where
  id : Nat
  path : String
  lineNo : Nat
  original : String
  normalized : String
  normToOrig : List Nat
  deriving Repr, DecidableEq, Inhabited

/-- A scored window candidate inside `_best_match_in_sentence`:
`(score, start, win_len, start_orig_hint)`. -/
structure MatchCand where
  score : Int
  start : Nat
  winLen : Nat
  startOrig : Nat
  deriving Repr, DecidableEq

/-- `_choose_better(cur, cand)`: higher score wins; equal scores prefer
the smaller original-start hint. -/
def chooseBetter (cur : Option MatchCand) (cand : MatchCand) : Option MatchCand :=
  match cur with
  | none => some cand
  | some c =>
      if cand.score > c.score then some cand
      else if cand.score = c.score && cand.startOrig < c.startOrig then some cand
      else some c

/-- One pass of a `for i in range(0, n)` candidate loop, folding
`_choose_better` over the candidates produced by `f`. -/
def foldCandidates (n : Nat) (f : Nat → Option MatchCand)
    (init : Option MatchCand) : Option MatchCand :=
  (List.range n).foldl
    (fun best i => match f i with
      | none => best
      | some cand => chooseBetter best cand)
    init

/-- `_best_match_in_sentence(s, q_norm)`: exact leftmost substring first,
else the best single-replacement / added-letter / missing-letter window. -/
def bestMatchInSentence (s : Sentence) (qNorm : String) : Option (Int × Nat × Nat) :=
  let sNorm := s.normalized.data
  let q := qNorm.data
  if q.isEmpty || sNorm.isEmpty then none
  else
    match pyFind sNorm q with
    | some idx => some (2 * (q.length : Int), idx, q.length)
    | none =>
      let qn := q.length
      let best := foldCandidates (sNorm.length + 1 - qn)
        (fun i =>
          let win := (sNorm.drop i).take qn
          match hammingOne q win with
          | none => none
          | some pos =>
              some ⟨2 * ((qn : Int) - 1) + replacePenalty pos, i, qn,
                    s.normToOrig.getD i 0⟩)
        none
      let best :=
        if 2 ≤ qn && qn - 1 ≤ sNorm.length then
          let L := qn - 1
          foldCandidates (sNorm.length + 1 - L)
            (fun i =>
              let win := (sNorm.drop i).take L
              match oneAddedInQuery q win with
              | none => none
              | some pos =>
                  some ⟨2 * (L : Int) + insdelPenalty pos, i, L,
                        s.normToOrig.getD i 0⟩)
            best
        else best
      let best :=
        if qn + 1 ≤ sNorm.length then
          let L := qn + 1
          foldCandidates (sNorm.length + 1 - L)
            (fun i =>
              let win := (sNorm.drop i).take L
              match oneMissingInQuery q win with
              | none => none
              | some pos =>
                  some ⟨2 * (qn : Int) + insdelPenalty pos, i, L,
                        s.normToOrig.getD i 0⟩)
            best
        else best
      best.map (fun b => (b.score, b.start, b.winLen))

/-!
## Tokenization (`re.findall(r"\w+", s)`) and `bisect`
-/

/-- The scanning loop behind `re.findall(r"\w+", ·)`: collect the
current run of word characters (in reverse) and emit it at each
non-word character or at the end. -/
def tokenizeAux : List Char → List Char → List (List Char)
  | [], run => if run.isEmpty then [] else [run.reverse]
  | c :: rest, run =>
      if reWordChar c then tokenizeAux rest (c :: run)
      else if run.isEmpty then tokenizeAux rest []
      else run.reverse :: tokenizeAux rest []

/-- `re.findall(r"\w+", ·)` on the underlying characters: the maximal
nonempty runs of word characters, in order. -/
def tokenizeChars (l : List Char) : List (List Char) :=
  tokenizeAux l []

/-- `re.findall(r"\w+", s)`. -/
def tokenizeWords (s : String) : List String :=
  (tokenizeChars s.data).map (fun l => ⟨l⟩)

/-- Python `<` on strings: lexicographic comparison of the code-point
sequences.  (`String.lt` is the same order, but its `Decidable` instance
is not kernel-reducible, so the model compares the `data` lists.) -/
def pyStrLt (a b : String) : Bool :=
  decide (a.data < b.data)

/-- The CPython `bisect.bisect_left` loop:
`while lo < hi: mid = (lo+hi)//2; if a[mid] < x: lo = mid+1 else: hi = mid`.
The interval shrinks strictly at each iteration, so `hi - lo` fuel
suffices; the fuel parameter only makes the recursion structural. -/
def bisectLeftLoop (a : List String) (x : String) : Nat → Nat → Nat → Nat
  | 0, lo, _ => lo
  | fuel + 1, lo, hi =>
      if lo < hi then
        let mid := (lo + hi) / 2
        if pyStrLt (a.getD mid "") x then bisectLeftLoop a x fuel (mid + 1) hi
        else bisectLeftLoop a x fuel lo mid
      else lo

/-- `bisect.bisect_left(a, x)`. -/
def bisectLeft (a : List String) (x : String) : Nat :=
  bisectLeftLoop a x a.length 0 a.length

/-- The CPython `bisect.bisect_right` loop:
`while lo < hi: mid = (lo+hi)//2; if x < a[mid]: hi = mid else: lo = mid+1`. -/
def bisectRightLoop (a : List String) (x : String) : Nat → Nat → Nat → Nat
  | 0, lo, _ => lo
  | fuel + 1, lo, hi =>
      if lo < hi then
        let mid := (lo + hi) / 2
        if pyStrLt x (a.getD mid "") then bisectRightLoop a x fuel lo mid
        else bisectRightLoop a x fuel (mid + 1) hi
      else lo

/-- `bisect.bisect_right(a, x)`. -/
def bisectRight (a : List String) (x : String) : Nat :=
  bisectRightLoop a x a.length 0 a.length

/-!
## `DB/index.py`: `KGramIndex` state and the word-prefix structures

`KGramIndex.build` attaches the corpus with
`attach_corpus(lambda sid: corpus.sentences[sid], len(corpus.sentences))`,
so the sentence getter is list indexing and `_num_sentences` is the list
length.  The completion paths that the claims exercise use only
`_term_lex`, `_postings`, `_num_sentences`, `iter_sentences` and
`candidates_for_prefix_query` (the class has neither
`candidates_for_substring` nor `candidates_for_term_prefix`, so the
`hasattr` branches in `search.py` that ask for them are not taken). -/
structure KGramState where
  sentences : List Sentence
  termLex : List String
  postings : List (String × List (Nat × Nat))
  deriving Repr, DecidableEq

/-- `self._postings.get(term)` (dict lookup; keys are unique). -/
def lookupPostings (ps : List (String × List (Nat × Nat))) (term : String) :
    Option (List (Nat × Nat)) :=
  (ps.find? (fun p => p.1 = term)).map (fun p => p.2)

/-- `term_freq(term)` inside `augment_query`: postings length, else 0. -/
def termFreq (ps : List (String × List (Nat × Nat))) (term : String) : Nat :=
  match lookupPostings ps term with
  | some l => l.length
  | none => 0

/-- Python `str.isalpha` on a whole string: nonempty and all characters
alphabetic. -/
def pyStrIsAlpha (s : String) : Bool :=
  !s.data.isEmpty && s.data.all pyIsAlpha

/-!
## `search.py`: `augment_query`
-/

/-- The `within_1_edit` helper nested in `augment_query`: equality, a
single substitution, or a single added/missing character, with the
penalty from the corresponding table. -/
def within1editPen (a b : String) : Bool × Int :=
  if a = b then (true, 0)
  else if b.length + 2 ≤ a.length || a.length + 2 ≤ b.length then (false, 0)
  else if a.length = b.length then
    match hammingOne a.data b.data with
    | none => (false, 0)
    | some pos => (true, -(replaceTable pos))
  else if a.length = b.length + 1 then
    match oneAddedInQuery a.data b.data with
    | none => (false, 0)
    | some pos => (true, -(insertDelTable pos))
  else
    match oneMissingInQuery a.data b.data with
    | none => (false, 0)
    | some pos => (true, -(insertDelTable pos))

/-- The accumulator of `choose_range`: the best term so far with its term
frequency and penalty (`best_tf` starts at `-1`, `best_pen` at
`-10_000`). -/
structure ChooseAcc where
  bestTerm : Option String
  bestTf : Int
  bestPen : Int
  deriving Repr, DecidableEq

/-- The candidate filters of `choose_range` (length window, optional
alphabetic-only restriction, digit ban when the token has letters, and
the one-edit test), as a single predicate. -/
def chooseFilter (tok : String) (tokHasAlpha alphaOnly : Bool) (term : String) : Bool :=
  !(term.length + 1 < tok.length || tok.length + 1 < term.length)
    && !(alphaOnly && !pyStrIsAlpha term)
    && !(tokHasAlpha && term.data.any pyIsDigit)
    && (within1editPen tok term).1

/-- `u` is at least as preferred as `v` by `choose_range`'s update rule:
strictly higher term frequency, or equal frequency and strictly higher
(closer to zero) penalty, or both equal and `u` not lexicographically
above `v`. -/
def tripleGE (ps : List (String × List (Nat × Nat))) (tok u v : String) : Prop :=
  (termFreq ps v : Int) < termFreq ps u
    ∨ ((termFreq ps v : Int) = termFreq ps u
        ∧ ((within1editPen tok v).2 < (within1editPen tok u).2
            ∨ ((within1editPen tok v).2 = (within1editPen tok u).2
                ∧ pyStrLt v u = false)))

/-- One iteration of the `for term in iterable` loop of `choose_range`:
the four sequential `continue` filters (length window, optional
alphabetic-only restriction, digit ban when the token has letters, the
one-edit test) are folded into the single conjunction `chooseFilter`;
a passing term is adopted under the `(tf, pen, term)`-preference
condition. -/
def chooseStep (ps : List (String × List (Nat × Nat))) (tok : String)
    (tokHasAlpha alphaOnly : Bool) (acc : ChooseAcc) (term : String) : ChooseAcc :=
  if chooseFilter tok tokHasAlpha alphaOnly term then
    let pen := (within1editPen tok term).2
    let tf : Int := termFreq ps term
    let beats :=
      match acc.bestTerm with
      | none => true
      | some bt =>
          tf > acc.bestTf || (tf = acc.bestTf && pen > acc.bestPen)
            || (tf = acc.bestTf && pen = acc.bestPen && pyStrLt term bt)
    if beats then ⟨some term, tf, pen⟩ else acc
  else acc

/-- `choose_range(iterable, alpha_only)`: fold the update over the terms;
returns `(best_term, best_pen)`. -/
def chooseRange (ps : List (String × List (Nat × Nat))) (tok : String)
    (tokHasAlpha : Bool) (alphaOnly : Bool) (it : List String) :
    Option String × Int :=
  let acc := it.foldl (chooseStep ps tok tokHasAlpha alphaOnly) ⟨none, -1, -10000⟩
  (acc.bestTerm, acc.bestPen)

/-- The per-token body of the `for tok in toks` loop of `augment_query`:
exact lexicon hit keeps the token; otherwise scan the ±3000 band around
the bisect point (alphabetic terms first when the token has letters),
then, if nothing was found and the token mixes digits and letters, the
whole lexicon; an uncorrectable token is kept with penalty 0. -/
def correctToken (L : List String) (ps : List (String × List (Nat × Nat)))
    (tok : String) : String × Int :=
  let i := bisectLeft L tok
  if i < L.length && L.getD i "" = tok then (tok, 0)
  else
    let lo := i - 3000
    let hi := min L.length (i + 3000)
    let tokHasAlpha := tok.data.any (fun c => 'a' ≤ c && c ≤ 'z')
    let band := (L.drop lo).take (hi - lo)
    let r :=
      if tokHasAlpha then
        let r1 := chooseRange ps tok tokHasAlpha true band
        match r1.1 with
        | some _ => r1
        | none => chooseRange ps tok tokHasAlpha false band
      else chooseRange ps tok tokHasAlpha false band
    let tokHasDigit := tok.data.any pyIsDigit
    let r :=
      match r.1 with
      | some _ => r
      | none =>
          if tokHasDigit && tokHasAlpha then
            let r1 := chooseRange ps tok tokHasAlpha true L
            match r1.1 with
            | some _ => r1
            | none => chooseRange ps tok tokHasAlpha false L
          else r
    match r with
    | (none, _) => (tok, 0)
    | (some u, pen) => (u, pen)

/-- The result dictionary of `augment_query`. -/
structure AugResult where
  original : String
  corrected : String
  totalPenalty : Int
  tokenMap : List (String × String × Int)
  trailingSpace : Bool
  deriving Repr, DecidableEq

/-- `augment_query(query_raw, index)`. -/
def augmentQuery (queryRaw : String) (idx : KGramState) : AugResult :=
  let trailing := queryRaw.data.getLast? = some ' '
  let qNorm := normalizeOnly queryRaw
  let toks := tokenizeWords qNorm
  if toks.isEmpty then
    ⟨queryRaw, queryRaw, 0, [], trailing⟩
  else
    let step := fun (acc : List String × List (String × String × Int) × Int)
        (tok : String) =>
      let (u, pen) := correctToken idx.termLex idx.postings tok
      (acc.1 ++ [u], acc.2.1 ++ [(tok, u, pen)], acc.2.2 + pen)
    let (cs, tm, tot) := toks.foldl step ([], [], 0)
    let correctedQuery :=
      String.intercalate " " cs ++ (if trailing then " " else "")
    ⟨queryRaw, correctedQuery, tot, tm, trailing⟩

/-!
## `DB/index.py`: `candidates_for_prefix_query`
-/

/-- The insert/delete scan of the tolerant `within_1_edit` nested in
`candidates_for_prefix_query` (`a` the shorter list): a tail difference
after the loop is accepted unconditionally. -/
def tolerantIndelLoop : List Char → List Char → Nat → Bool
  | _, [], _ => true
  | as_, b :: bs, diff =>
      match as_ with
      | [] => true
      | a :: as1 =>
          if a = b then tolerantIndelLoop as1 bs diff
          else if 1 ≤ diff then false
          else tolerantIndelLoop as_ bs (diff + 1)

/-- The tolerant `within_1_edit(a, b)` of `DB/index.py` (Boolean only). -/
def within1editTolerant (a b : String) : Bool :=
  if a = b then true
  else if b.length + 2 ≤ a.length || a.length + 2 ≤ b.length then false
  else if a.length = b.length then
    ((a.data.zip b.data).countP (fun p => p.1 ≠ p.2)) = 1
  else if a.length > b.length then tolerantIndelLoop b.data a.data 0
  else tolerantIndelLoop a.data b.data 0

/-- The neighbour-expansion loop of `candidates_for_prefix_query`: append
band terms within one (tolerant) edit of the last token, skipping
duplicates, breaking once `max_terms` terms are collected. -/
def expandNeighbors (last : String) (maxTerms : Nat) :
    List String → List String → List String
  | [], acc => acc
  | t :: rest, acc =>
      if within1editTolerant last t && !acc.contains t then
        let acc' := acc ++ [t]
        if maxTerms ≤ acc'.length then acc'
        else expandNeighbors last maxTerms rest acc'
      else expandNeighbors last maxTerms rest acc

/-- The inner `for sid, _ in postings` loop aggregating candidate
sentence ids (a Python `set`, modelled as an insertion-ordered
duplicate-free list): returns the updated set and whether the
`max_candidates` early return fired. -/
def addSids (maxCandidates : Nat) : List (Nat × Nat) → List Nat → List Nat × Bool
  | [], acc => (acc, false)
  | (sid, _) :: rest, acc =>
      let acc' := if acc.contains sid then acc else acc ++ [sid]
      if maxCandidates ≤ acc'.length then (acc', true)
      else addSids maxCandidates rest acc'

/-- The outer `for term in last_terms` aggregation loop. -/
def collectSids (ps : List (String × List (Nat × Nat))) (maxCandidates : Nat) :
    List String → List Nat → List Nat
  | [], acc => acc
  | term :: rest, acc =>
      let r := addSids maxCandidates ((lookupPostings ps term).getD []) acc
      if r.2 then r.1 else collectSids ps maxCandidates rest r.1

/-- `candidates_for_prefix_query(query, max_terms, max_candidates)`. -/
def candidatesForPrefixQuery (idx : KGramState) (query : String)
    (maxTerms maxCandidates : Nat) : List Nat :=
  let qToks := tokenizeWords query
  match qToks.getLast? with
  | none => []
  | some last =>
      let L := idx.termLex
      let lo := bisectLeft L last
      let hi := bisectRight L (last.push '￿')
      let hi := if maxTerms < hi - lo then lo + maxTerms else hi
      let lastTerms := (L.drop lo).take (hi - lo)
      let wLo := lo - 2000
      let wHi := min L.length (hi + 2000)
      let band := (L.drop wLo).take (wHi - wLo)
      let lastTerms := expandNeighbors last maxTerms band lastTerms
      collectSids idx.postings maxCandidates lastTerms []

/-!
## `search.py`: the prefix pattern and `complete_query`

`_compile_prefix_pattern` produces one of three regexes over the
normalized text: `\b t1 \s+ … \s+ tn \s+ \w+` (trailing space),
`\b t \w*` (single token) or `\b t1 \s+ … \s+ pfx \w*` (several tokens);
with no tokens it produces `$a`, which matches nothing.  The literals
`ti` are `\w+` tokens, so they begin with word characters and contain no
whitespace; consequently the greedy interpretation of `\s+` and `\w*`
is exact (no backtracking can succeed where the greedy scan fails), and
`re.search` takes the leftmost matching start position.  The scanner
below implements exactly that. -/

/-- Match a literal at the head of a suffix, returning the rest. -/
def stripExact : List Char → List Char → Option (List Char)
  | [], s => some s
  | _ :: _, [] => none
  | p :: ps, c :: cs => if p = c then stripExact ps cs else none

/-- Match `\s+` greedily at the head of a suffix. -/
def stripSpaces1 (s : List Char) : Option (List Char) :=
  match s with
  | [] => none
  | c :: cs => if pyIsSpace c then some (cs.dropWhile pyIsSpace) else none

/-- Match `(\s+ tok)*` for the remaining head tokens. -/
def matchTailToks : List (List Char) → List Char → Option (List Char)
  | [], s => some s
  | t :: ts, s =>
      match stripSpaces1 s with
      | none => none
      | some s1 =>
          match stripExact t s1 with
          | none => none
          | some s2 => matchTailToks ts s2

/-- Match the whole compiled pattern (minus the leading `\b`) against the
suffix `s`, returning the number of characters consumed. -/
def patMatchAt (toks : List (List Char)) (trailing : Bool) (s : List Char) :
    Option Nat :=
  match toks with
  | [] => none
  | t1 :: rest =>
      match stripExact t1 s with
      | none => none
      | some s1 =>
          match matchTailToks rest s1 with
          | none => none
          | some s2 =>
              if trailing then
                match stripSpaces1 s2 with
                | none => none
                | some s3 =>
                    if (s3.takeWhile reWordChar).isEmpty then none
                    else some (s.length - (s3.dropWhile reWordChar).length)
              else
                some (s.length - (s2.dropWhile reWordChar).length)

/-- `\b` immediately before position `i`: start of text or a non-word
previous character.  (The pattern continues with a word character, so the
word-to-non-word boundary case can never contribute a match.) -/
def atWordBoundary (text : List Char) (i : Nat) : Bool :=
  match i with
  | 0 => true
  | j + 1 => !reWordChar (text.getD j ' ')

/-- `pattern.search(text)` for the compiled prefix pattern: the leftmost
match span `(start, end)`. -/
def patSearch (toks : List (List Char)) (trailing : Bool) (text : List Char) :
    Option (Nat × Nat) :=
  (List.range (text.length + 1)).findSome? (fun i =>
    if atWordBoundary text i then
      match patMatchAt toks trailing (text.drop i) with
      | none => none
      | some consumed => some (i, i + consumed)
    else none)

/-- `re.search(r"\b(\w+)", sub)`: the leftmost word start and the span of
that word. -/
def searchWordStart (sub : List Char) : Option (Nat × Nat) :=
  (List.range (sub.length + 1)).findSome? (fun i =>
    if i < sub.length && atWordBoundary sub i && reWordChar (sub.getD i ' ') then
      some (i, i + ((sub.drop i).takeWhile reWordChar).length)
    else none)

/-- `re.search(rf"\b{re.escape(pfx)}\w*", sub)`: the leftmost occurrence
of the literal `pfx` at a word boundary, extended by `\w*`. -/
def searchBoundPfx (pfx : List Char) (sub : List Char) : Option (Nat × Nat) :=
  (List.range (sub.length + 1)).findSome? (fun i =>
    if atWordBoundary sub i then
      match stripExact pfx (sub.drop i) with
      | none => none
      | some rest =>
          some (i, i + pfx.length + (rest.takeWhile reWordChar).length)
    else none)

/-- The inner `_matched_word_at(norm_text, start)` of `complete_query`:
`(word, s, e)` for the `\w+` word beginning at `start`, else
`("", start, start)`. -/
def matchedWordAt (normText : List Char) (start : Nat) : List Char × Nat × Nat :=
  let run := (normText.drop start).takeWhile reWordChar
  if run.isEmpty then ([], start, start) else (run, start, start + run.length)

/-- `_orig_span_from_norm(sentence, n_s, n_e)`: map a normalized span to
an original span through `norm_to_orig`.  (On a record whose mapping is
empty while its normalized text is not, Python's `nto[-1]` would raise;
the claims never evaluate that case and `getD … 0` stands in for it.) -/
def origSpanFromNorm (s : Sentence) (nS nE : Nat) : Nat × Nat :=
  let nto := s.normToOrig
  let oS := if nto.length ≤ nS then s.original.data.length else nto.getD nS 0
  let oE := if nE = 0 then 0 else nto.getD (min (nE - 1) (nto.length - 1)) 0 + 1
  (oS, oE)

/-- `_ONLY_WORDCHARS.match(chunk)` with `^[A-Za-z0-9_]+$`: a nonempty run
of ASCII word characters (`$` also accepts one trailing newline). -/
def onlyWordCharsMatch (l : List Char) : Bool :=
  let core := if l.getLast? = some '\n' then l.dropLast else l
  !core.isEmpty && core.all asciiWordChar

/-- A result row (`rows.append({...})` in `search.py`).  The substring
path's dictionaries have no `query_original`/`query_corrected` keys;
those fields are `none` there. -/
structure Row where
  score : Int
  offsetLo : Nat
  offsetHi : Nat
  sourceText : String
  completedSentence : String
  queryOriginal : Option String := none
  queryCorrected : Option String := none
  deriving Repr, DecidableEq

/-- Insert a row into a score-descending list after every row of equal
or higher score. -/
def insertRowDesc (r : Row) : List Row → List Row
  | [] => [r]
  | x :: xs => if r.score ≤ x.score then x :: insertRowDesc r xs else r :: x :: xs

/-- `rows.sort(key=lambda r: r["score"], reverse=True)`: a stable
descending sort on the score alone.  Python's sort is stable; this
insertion sort keeps rows of equal score in their original order, so it
computes the same list. -/
def pySortRowsDesc (rows : List Row) : List Row :=
  rows.foldl (fun acc r => insertRowDesc r acc) []

/-- The sort followed by `rows[:top_k]`. -/
def pySortTake (rows : List Row) (topK : Nat) : List Row :=
  (pySortRowsDesc rows).take topK

/-- The body of the candidate loop of `complete_query_substring`: skip
the sentence when `_best_match_in_sentence` returns `None`, else build
its result row. -/
def mkSubRow (qNorm : String) (s : Sentence) : Option Row :=
  match bestMatchInSentence s qNorm with
  | none => none
  | some (score, start, winLen) =>
      some { score := score, offsetLo := start, offsetHi := start + winLen,
             sourceText := s.path, completedSentence := s.original }

/-- `complete_query_substring(query, index, top_k)`.  `KGramIndex` has no
`candidates_for_substring`, so the candidate ids are
`range(index._num_sentences)`, and `iter_sentences` maps the attached
getter `corpus.sentences[sid]` over them. -/
def completeQuerySubstring (query : String) (idx : KGramState) (topK : Nat) :
    List Row :=
  let qNorm := normalizeOnly query
  if qNorm = "" then []
  else
    pySortTake ((List.range idx.sentences.length).filterMap
      (fun sid => mkSubRow qNorm (idx.sentences.getD sid default))) topK

/-- The guard-and-score body of the candidate loop of `complete_query`
(prefix mode), for one sentence.  Returns the row, or `none` for any
`continue`. -/
def prefixRowFor (query qCorr : String) (toks : List String) (trailing : Bool)
    (s : Sentence) : Option Row :=
  let norm := s.normalized.data
  match patSearch (toks.map String.data) trailing norm with
  | none => none
  | some (start, stop) =>
      let guardSpan : Option (Nat × Nat) :=
        if toks.isEmpty then some (0, 0)
        else if trailing then
          match searchWordStart ((norm.drop start).take (stop - start)) with
          | none => none
          | some (ws, we) => some (start + ws, start + we)
        else if toks.length = 1 then
          let r := matchedWordAt norm start
          some (r.2.1, r.2.2)
        else
          match searchBoundPfx ((toks.getLastD "").data)
              ((norm.drop start).take (stop - start)) with
          | none => none
          | some (ws, we) => some (start + ws, start + we)
      match guardSpan with
      | none => none
      | some (wS, wE) =>
          let guardOk :=
            if toks.isEmpty then true
            else
              let (oS, oE) := origSpanFromNorm s wS wE
              onlyWordCharsMatch ((s.original.data.drop oS).take (oE - oS))
          if !guardOk then none
          else
            let targetRaw : String := ⟨(s.original.data.drop start).take (stop - start)⟩
            match scorePrefix1edit query targetRaw with
            | none => none
            | some sc =>
                some { score := sc, offsetLo := start, offsetHi := stop,
                       sourceText := s.path, completedSentence := s.original,
                       queryOriginal := some query, queryCorrected := some qCorr }

/-- `complete_query(query, index, top_k)`: dispatch on the configured
search mode; in prefix mode augment, select candidates, filter through
the pattern with the strict prefix guard, score against the original
text, sort and truncate. -/
def completeQuery (searchMode : String) (query : String) (idx : KGramState)
    (topK : Nat) : List Row :=
  if searchMode ≠ "prefix" then completeQuerySubstring query idx topK
  else
    let maxTerms := 5000
    let maxCands := 20000
    let aug := augmentQuery query idx
    let qCorr := aug.corrected
    let trailing := aug.trailingSpace
    let qCorrNorm := normalizeOnly qCorr
    let toks := tokenizeWords qCorrNorm
    let candSids := candidatesForPrefixQuery idx qCorrNorm maxTerms maxCands
    let candSids :=
      if candSids.isEmpty && qCorrNorm ≠ normalizeOnly query then
        List.range idx.sentences.length
      else candSids
    let rows := candSids.filterMap (fun sid =>
      prefixRowFor query qCorr toks trailing (idx.sentences.getD sid default))
    pySortTake rows topK

/-- `SEARCH_MODE` from `backend/config.py`. -/
def SEARCH_MODE : String := "prefix"

/-- `TOP_K` from `backend/config.py`. -/
def TOP_K : Nat := 5

/-!
## Bytes, little-endian integers and UTF-8

Python `bytes` values are `List Nat` with entries below 256.
-/

/-- `int.from_bytes(bs, "little")`. -/
def leNat (bs : List Nat) : Nat :=
  bs.foldr (fun b acc => b + 256 * acc) 0

/-- `struct.pack("<I", v)` for `v < 2^32`. -/
def packU32 (v : Nat) : List Nat :=
  [v % 256, v / 256 % 256, v / 65536 % 256, v / 16777216 % 256]

/-- `s.encode("utf-8")` for one character. -/
def utf8EncodeChar (c : Char) : List Nat :=
  let n := c.toNat
  if n < 128 then [n]
  else if n < 2048 then [192 + n / 64, 128 + n % 64]
  else if n < 65536 then [224 + n / 4096, 128 + n / 64 % 64, 128 + n % 64]
  else [240 + n / 262144, 128 + n / 4096 % 64, 128 + n / 64 % 64, 128 + n % 64]

/-- `s.encode("utf-8")`. -/
def utf8Encode (s : String) : List Nat :=
  s.data.flatMap utf8EncodeChar

/-- `b.decode("utf-8")`, one code point: strict decoding (continuation
bytes checked, overlong forms, surrogates and values above U+10FFFF
rejected), returning the code point and the remaining bytes. -/
def utf8DecodeChar (bs : List Nat) : Option (Char × List Nat) :=
  match bs with
  | [] => none
  | b0 :: rest =>
      if b0 < 128 then some (Char.ofNat b0, rest)
      else if 194 ≤ b0 && b0 < 224 then
        match rest with
        | b1 :: rest1 =>
            if 128 ≤ b1 && b1 < 192 then
              some (Char.ofNat ((b0 - 192) * 64 + (b1 - 128)), rest1)
            else none
        | [] => none
      else if 224 ≤ b0 && b0 < 240 then
        match rest with
        | b1 :: b2 :: rest2 =>
            let v := (b0 - 224) * 4096 + (b1 - 128) * 64 + (b2 - 128)
            if (128 ≤ b1 && b1 < 192) && (128 ≤ b2 && b2 < 192)
                && 2048 ≤ v && (v < 55296 || 57344 ≤ v) then
              some (Char.ofNat v, rest2)
            else none
        | _ => none
      else if 240 ≤ b0 && b0 < 245 then
        match bs with
        | _ :: b1 :: b2 :: b3 :: rest3 =>
            let v := (b0 - 240) * 262144 + (b1 - 128) * 4096
                      + (b2 - 128) * 64 + (b3 - 128)
            if (128 ≤ b1 && b1 < 192) && (128 ≤ b2 && b2 < 192)
                && (128 ≤ b3 && b3 < 192) && 65536 ≤ v && v < 1114112 then
              some (Char.ofNat v, rest3)
            else none
        | _ => none
      else none

/-- The decoding loop of `b.decode("utf-8")`, with fuel (each step
consumes at least one byte, so `l.length` fuel suffices). -/
def utf8DecodeAux : Nat → List Nat → Option (List Char)
  | _, [] => some []
  | 0, _ :: _ => none
  | fuel + 1, l =>
      match utf8DecodeChar l with
      | none => none
      | some (c, rest) => (utf8DecodeAux fuel rest).map (fun cs => c :: cs)

/-- `b.decode("utf-8")`. -/
def utf8Decode (l : List Nat) : Option (List Char) :=
  utf8DecodeAux l.length l

/-!
## `DB/corpusdb.py`: the sentence store

A `CorpusDB` after `_parse_header` holds the memory-mapped bytes and the
`sid → offset` dictionary parsed from the table.  `get_sentence` and
`iter_sentences` read record bodies on demand.
-/

/-- The error kinds of the sentence store: `KeyError(sid)` from
`get_sentence` on an unknown id, and the struct/decoding errors a
truncated or corrupt record body raises. -/
inductive CdbError where
  | keyError (sid : Nat)
  | corrupt (msg : String)
  deriving Repr, DecidableEq

/-- An opened `CorpusDB`: the parsed `sid → offset` table (a Python dict,
so later assignments override earlier ones) and the mapped bytes. -/
structure CorpusDB where
  idxTable : List (Nat × Nat)
  mm : List Nat
  deriving Repr, DecidableEq

/-- `self._idx[sid]` / `self._idx.get(sid)`: dictionary lookup, with the
last insertion for a key winning. -/
def dictLookup (l : List (Nat × Nat)) (k : Nat) : Option Nat :=
  (l.reverse.find? (fun p => p.1 = k)).map (fun p => p.2)

/-- `mm[pos:pos+n]` (a Python slice truncates silently). -/
def sliceBytes (mm : List Nat) (pos n : Nat) : List Nat :=
  (mm.drop pos).take n

/-- `_U16.unpack_from(mm, pos)` (raises `struct.error` when fewer than two
bytes remain). -/
def readU16 (mm : List Nat) (pos : Nat) : Except CdbError Nat :=
  if pos + 2 ≤ mm.length then .ok (leNat (sliceBytes mm pos 2))
  else .error (.corrupt "u16")

/-- `_U32.unpack_from(mm, pos)`. -/
def readU32 (mm : List Nat) (pos : Nat) : Except CdbError Nat :=
  if pos + 4 ≤ mm.length then .ok (leNat (sliceBytes mm pos 4))
  else .error (.corrupt "u32")

/-- `_read_str(mm, pos)`: u16 length, then that many bytes decoded as
UTF-8; the position advances by the declared length. -/
def readStr (mm : List Nat) (pos : Nat) : Except CdbError (String × Nat) := do
  let ln ← readU16 mm pos
  match utf8Decode (sliceBytes mm (pos + 2) ln) with
  | none => .error (.corrupt "utf-8")
  | some cs => .ok (⟨cs⟩, pos + 2 + ln)

/-- `_read_bytes32(mm, pos)`: u32 length then that many bytes. -/
def readBytes32 (mm : List Nat) (pos : Nat) : Except CdbError (List Nat × Nat) := do
  let ln ← readU32 mm pos
  .ok (sliceBytes mm (pos + 4) ln, pos + 4 + ln)

/-- `range(0, len(mv), 4)` chunks, each via `int.from_bytes(mv[i:i+4],
"little")` (a final short chunk still yields a value). -/
def u32ChunksPy : List Nat → List Nat
  | [] => []
  | [b0] => [leNat [b0]]
  | [b0, b1] => [leNat [b0, b1]]
  | [b0, b1, b2] => [leNat [b0, b1, b2]]
  | b0 :: b1 :: b2 :: b3 :: rest => leNat [b0, b1, b2, b3] :: u32ChunksPy rest

/-- `_read_record(mm, off)`: path, line number, original, normalized and
the `norm_to_orig` array (`array("I").frombytes` raises unless the byte
count is a multiple of four; the empty guard skips it). -/
def readRecord (mm : List Nat) (off : Nat) : Except CdbError Sentence := do
  let (path, pos) ← readStr mm off
  let lineNo ← readU32 mm pos
  let pos := pos + 4
  let (origB, pos) ← readBytes32 mm pos
  let (normB, pos) ← readBytes32 mm pos
  let mlen ← readU32 mm pos
  let pos := pos + 4
  let mbytes := sliceBytes mm pos (mlen * 4)
  if mbytes.length % 4 ≠ 0 then .error (.corrupt "frombytes")
  else
    match utf8Decode origB, utf8Decode normB with
    | some origC, some normC =>
        .ok ⟨0, path, lineNo, ⟨origC⟩, ⟨normC⟩, u32ChunksPy mbytes⟩
    | _, _ => .error (.corrupt "utf-8")

/-- `CorpusDB.get_sentence(sid)`: table lookup, `KeyError(sid)` when the
id is absent, else decode the record at its offset. -/
def getSentence (db : CorpusDB) (sid : Nat) : Except CdbError Sentence :=
  match dictLookup db.idxTable sid with
  | none => .error (.keyError sid)
  | some off => readRecord db.mm off

/-- `CorpusDB.iter_sentences(ids)`: iterate in the given order, silently
skipping ids whose table lookup fails; a record-body failure propagates
(the generator raises). -/
def iterSentences (db : CorpusDB) : List Nat → Except CdbError (List Sentence)
  | [] => .ok []
  | sid :: rest =>
      match dictLookup db.idxTable sid with
      | none => iterSentences db rest
      | some off => do
          let s ← readRecord db.mm off
          let l ← iterSentences db rest
          .ok (s :: l)

/-!
## `autocomplete/acx.py`: the k-gram index file

`ACXWriter.save` collects per-item directory entries (encoded key,
running postings offset, count) and the concatenated postings, then
writes magic, `k`, the key count, the directory and the postings region.
`ACXIndex._parse_header` reads them back; `get` binary-searches the key
directory and decodes the postings slice.
-/

/-- The collection loop of `ACXWriter.save`: encoded keys with their
postings offsets and counts, plus the concatenated postings; a key over
255 UTF-8 bytes raises `ValueError`. -/
def acxCollect : List (String × List Nat) → Nat →
    Except String (List (List Nat × Nat × Nat) × List Nat)
  | [], _ => .ok ([], [])
  | (key, ids) :: rest, off =>
      let kb := utf8Encode key
      if 255 < kb.length then
        .error "K-gram key too long for ACX (max 255 bytes)"
      else do
        let (entries, postings) ← acxCollect rest (off + ids.length)
        .ok ((kb, off, ids.length) :: entries, ids ++ postings)

/-- `struct.pack("<I", v)` raises for values outside 32 bits. -/
def packU32E (v : Nat) : Except String (List Nat) :=
  if v < 4294967296 then .ok (packU32 v) else .error "u32 out of range"

/-- One directory entry: `[len:u8][key][off:u32][cnt:u32]`. -/
def acxEntryBytes (e : List Nat × Nat × Nat) : Except String (List Nat) := do
  let offB ← packU32E e.2.1
  let cntB ← packU32E e.2.2
  .ok ([e.1.length] ++ e.1 ++ offB ++ cntB)

/-- `ACXWriter(k).save(path, items)`: the bytes written to the file.
The writer serializes the items in the order given — it does not sort
the keys. -/
def acxSave (k : Nat) (items : List (String × List Nat)) :
    Except String (List Nat) := do
  let (entries, postings) ← acxCollect items 0
  let kB ← packU32E k
  let nB ← packU32E entries.length
  let dir ← entries.mapM acxEntryBytes
  let postB ← postings.mapM packU32E
  .ok ([65, 67, 88, 49] ++ kB ++ nB ++ dir.flatten ++ postB.flatten)

/-- An opened `ACXIndex` after `_parse_header`: `k`, the key directory
(decoded keys, offsets, counts) and the postings region (the mapped
bytes from `_postings_base` on; `get`'s absolute slice arithmetic is
relative to that base). -/
structure ACXState where
  k : Nat
  keys : List String
  offs : List Nat
  cnts : List Nat
  postingsRegion : List Nat
  deriving Repr, DecidableEq

/-- `bs.take 4` then `unpack` for the parser (`mm.read(4)` returns the
bytes available; `unpack` raises unless there are exactly four). -/
def takeU32 (bs : List Nat) : Except String (Nat × List Nat) :=
  match bs with
  | b0 :: b1 :: b2 :: b3 :: rest => .ok (leNat [b0, b1, b2, b3], rest)
  | _ => .error "truncated u32"

/-- The `for _ in range(n)` directory loop of `ACXIndex._parse_header`:
length byte, key bytes (decoded as UTF-8), offset, count. -/
def parseDir : Nat → List Nat →
    Except String (List (String × Nat × Nat) × List Nat)
  | 0, bs => .ok ([], bs)
  | n + 1, bs =>
      match bs with
      | [] => .error "truncated entry"
      | ln :: bs1 =>
          match utf8Decode (bs1.take ln) with
          | none => .error "utf-8"
          | some cs => do
              let (off, bs3) ← takeU32 (bs1.drop ln)
              let (cnt, bs4) ← takeU32 bs3
              let (rest, tail) ← parseDir n bs4
              .ok ((⟨cs⟩, off, cnt) :: rest, tail)

/-- `ACXIndex.__init__`/`_parse_header` on the mapped bytes: magic check,
`k`, key count, directory, and the postings base. -/
def acxParse (bs : List Nat) : Except String ACXState :=
  if bs.take 4 = [65, 67, 88, 49] then do
    let (k, r1) ← takeU32 (bs.drop 4)
    let (n, r2) ← takeU32 r1
    let (dir, tail) ← parseDir n r2
    .ok ⟨k, dir.map (fun e => e.1), dir.map (fun e => e.2.1),
         dir.map (fun e => e.2.2), tail⟩
  else .error "Invalid ACX file"

/-- `ACXIndex.get(key)`: binary search in the key directory; a missing
key or a zero count gives the empty set, else the postings slice decoded
as u32 little-endian.  The Python function returns the `set` of these
values; the list here enumerates them in postings order. -/
def acxGet (st : ACXState) (key : String) : List Nat :=
  let i := bisectLeft st.keys key
  if i = st.keys.length || st.keys.getD i "" ≠ key then []
  else
    let off := st.offs.getD i 0
    let cnt := st.cnts.getD i 0
    if cnt = 0 then []
    else u32ChunksPy ((st.postingsRegion.drop (off * 4)).take (cnt * 4))

/-- The directory entries `acxCollect` produces (encoded key, running
postings offset, count), written out directly with their running
offsets (names `acxCollect`'s accumulating result for the round-trip
analysis). -/
def acxEntriesOf : List (String × List Nat) → Nat → List (List Nat × Nat × Nat)
  | [], _ => []
  | p :: rest, off => (utf8Encode p.1, off, p.2.length) :: acxEntriesOf rest (off + p.2.length)

/-- The same directory with the keys still as strings (what the parser
recovers). -/
def acxDirOf : List (String × List Nat) → Nat → List (String × Nat × Nat)
  | [], _ => []
  | p :: rest, off => (p.1, off, p.2.length) :: acxDirOf rest (off + p.2.length)

/-!
## The specification's query-augmenter preference (for the refinement
claim about `augment_query`)
-/

/-- Modelled from the spec (§4.7), for comparison with `correctToken`:
the spec's preference between two candidate replacement terms — higher
term frequency first, then penalty closer to zero, then lexicographically
smaller, then (when the token has letters) alphabetic preferred. -/
def specPrefers (ps : List (String × List (Nat × Nat))) (tokHasAlpha : Bool)
    (tok u v : String) : Bool :=
  let tfU : Int := termFreq ps u
  let tfV : Int := termFreq ps v
  let penU := (within1editPen tok u).2
  let penV := (within1editPen tok v).2
  tfU > tfV || (tfU = tfV && penU > penV)
    || (tfU = tfV && penU = penV && pyStrLt u v)
    || (tfU = tfV && penU = penV && u = v)
    || (tfU = tfV && penU = penV && tokHasAlpha && pyStrIsAlpha u
          && !pyStrIsAlpha v)

/-- Modelled from the spec (§4.7): the replacement the specification
says `augment_query` chooses for an out-of-lexicon token — the most
preferred lexicon term within one edit of it. -/
def specAugmentChoice (L : List String) (ps : List (String × List (Nat × Nat)))
    (tok : String) : Option String :=
  (L.filter (fun u => (within1editPen tok u).1)).foldl
    (fun best u =>
      match best with
      | none => some u
      | some b => if specPrefers ps (tok.data.any (fun c => 'a' ≤ c && c ≤ 'z'))
            tok u b then some u else some b)
    none

/-- The ±3000 band of lexicon terms around the bisect point of `tok`
that `augment_query` scans for replacements (names the slice expression
inside `correctToken`). -/
def c7Band (L : List String) (tok : String) : List String :=
  let i := bisectLeft L tok
  (L.drop (i - 3000)).take (min L.length (i + 3000) - (i - 3000))

/-- `any(c.isalpha() ... for c in tok)` as `augment_query` computes it:
the token contains an ASCII lowercase letter (tokens are already
normalized). -/
def c7HasAlpha (tok : String) : Bool :=
  tok.data.any (fun c => 'a' ≤ c && c ≤ 'z')

/-- Decidable equality for `Except` results, so concrete store and index
evaluations can be settled by `decide`. -/
instance instDecEqExcept {e a : Type} [DecidableEq e] [DecidableEq a] :
    DecidableEq (Except e a)
  | .ok x, .ok y =>
      if h : x = y then .isTrue (by subst h; rfl)
      else .isFalse (fun hh => h (Except.ok.inj hh))
  | .error x, .error y =>
      if h : x = y then .isTrue (by subst h; rfl)
      else .isFalse (fun hh => h (Except.error.inj hh))
  | .ok _, .error _ => .isFalse (fun hh => Except.noConfusion hh)
  | .error _, .ok _ => .isFalse (fun hh => Except.noConfusion hh)

/-!
## Concrete corpora and stores used by witnesses and counterexamples

Each `Sentence` below is what the ingestion pipeline produces for the
quoted original line: `normalized = normalize_only(original)` and
`norm_to_orig = normalize_and_map(original)[1]`.
-/

/-- The single sentence of the corpus `["hello world"]`. -/
def helloWorldSentence : Sentence :=
  ⟨0, "corpus.txt", 0, "hello world", "hello world",
   [0, 1, 2, 3, 4, 5, 6, 7, 8, 9, 10]⟩

/-- The index state built over `["ahello"]` (lexicon and postings as
`_build_word_prefix_index` produces them). -/
def ahelloIndex : KGramState :=
  ⟨[⟨0, "f.txt", 0, "ahello", "ahello", [0, 1, 2, 3, 4, 5]⟩],
   ["ahello"], [("ahello", [(0, 0)])]⟩

/-- The index state built over `["zz hello", "aa hello"]` (only the
sentence list matters on the substring path). -/
def tieIndex : KGramState :=
  ⟨[⟨0, "t.txt", 0, "zz hello", "zz hello", [0, 1, 2, 3, 4, 5, 6, 7]⟩,
    ⟨1, "t.txt", 1, "aa hello", "aa hello", [0, 1, 2, 3, 4, 5, 6, 7]⟩],
   ["aa", "hello", "zz"],
   [("zz", [(0, 0)]), ("hello", [(0, 1), (1, 1)]), ("aa", [(1, 0)])]⟩

/-- The index state built over `["to be"]`. -/
def toBeIndex : KGramState :=
  ⟨[⟨0, "t.txt", 0, "to be", "to be", [0, 1, 2, 3, 4]⟩],
   ["be", "to"], [("to", [(0, 0)]), ("be", [(0, 1)])]⟩

/-- A lexicon with an alphabetic low-frequency term and a digit-bearing
high-frequency term, both within one edit of the token `cat5`. -/
def catPostings : List (String × List (Nat × Nat)) :=
  [("cat", [(0, 0)]), ("cat1", [(0, 0), (1, 0), (2, 0), (3, 0), (4, 0)])]

/-- The record bytes of a sentence with path `"a"`, line 7, original and
normalized `"hi"` and mapping `[0, 1]`. -/
def hiRecordBytes : List Nat :=
  [1, 0, 97] ++ [7, 0, 0, 0] ++ [2, 0, 0, 0, 104, 105]
    ++ [2, 0, 0, 0, 104, 105] ++ [2, 0, 0, 0, 0, 0, 0, 0, 1, 0, 0, 0]

/-- The decoded record of `hiRecordBytes`. -/
def hiSentence : Sentence := ⟨0, "a", 7, "hi", "hi", [0, 1]⟩

/-- An opened `CorpusDB` whose table has ids 0 and 2, both pointing at
`hiRecordBytes`. -/
def hiDb : CorpusDB := ⟨[(0, 0), (2, 0)], hiRecordBytes⟩

/-!
# Theorems

General-purpose lemmas first, then one theorem per claim (with its
witness or counterexample where required).
-/

/-- Membership in an insertion is membership in the inserted row or the
old list. -/
theorem mem_insertRowDesc {y r : Row} {l : List Row} :
    y ∈ insertRowDesc r l ↔ y = r ∨ y ∈ l := by
  induction l with
  | nil => simp [insertRowDesc]
  | cons x xs ih =>
      by_cases h : r.score ≤ x.score
      · simp only [insertRowDesc, if_pos h, List.mem_cons, ih]
        try tauto
      · simp only [insertRowDesc, if_neg h, List.mem_cons]
        try tauto

/-- Insertion preserves the score-descending order. -/
theorem insertRowDesc_pairwise (r : Row) (l : List Row)
    (h : List.Pairwise (fun a b => b.score ≤ a.score) l) :
    List.Pairwise (fun a b => b.score ≤ a.score) (insertRowDesc r l) := by
  induction l with
  | nil => simp [insertRowDesc]
  | cons x xs ih =>
      rcases h with _ | ⟨hx, hxs⟩
      by_cases hle : r.score ≤ x.score
      · simp only [insertRowDesc, if_pos hle]
        refine List.Pairwise.cons ?_ (ih hxs)
        intro y hy
        rcases mem_insertRowDesc.mp hy with rfl | hy'
        · exact hle
        · exact hx y hy'
      · simp only [insertRowDesc, if_neg hle]
        refine List.Pairwise.cons ?_ (List.Pairwise.cons hx hxs)
        intro y hy
        rcases hy with _ | hy'
        · omega
        · have := hx y (by assumption)
          omega

/-- Insertion is a permutation of consing. -/
theorem insertRowDesc_perm (r : Row) (l : List Row) :
    List.Perm (insertRowDesc r l) (r :: l) := by
  induction l with
  | nil => simp [insertRowDesc]
  | cons x xs ih =>
      by_cases h : r.score ≤ x.score
      · simp only [insertRowDesc, if_pos h]
        exact (ih.cons x).trans (List.Perm.swap r x xs)
      · simp only [insertRowDesc, if_neg h]
        exact List.Perm.refl _

/-- The stable sort is score-descending. -/
theorem pySortRowsDesc_pairwise (rows : List Row) :
    List.Pairwise (fun a b => b.score ≤ a.score) (pySortRowsDesc rows) := by
  suffices h : ∀ acc, List.Pairwise (fun a b => b.score ≤ a.score) acc →
      List.Pairwise (fun a b => b.score ≤ a.score)
        (rows.foldl (fun acc r => insertRowDesc r acc) acc) by
    exact h [] (by simp)
  induction rows with
  | nil => intro acc hacc; simpa using hacc
  | cons r rest ih =>
      intro acc hacc
      exact ih _ (insertRowDesc_pairwise r acc hacc)

/-- The stable sort permutes its input. -/
theorem pySortRowsDesc_perm (rows : List Row) :
    List.Perm (pySortRowsDesc rows) rows := by
  suffices h : ∀ acc, List.Perm
      (rows.foldl (fun acc r => insertRowDesc r acc) acc) (rows ++ acc) by
    simpa using h []
  induction rows with
  | nil => intro acc; simp
  | cons r rest ih =>
      intro acc
      refine (ih (insertRowDesc r acc)).trans ?_
      have h2 : List.Perm (rest ++ insertRowDesc r acc) (rest ++ r :: acc) :=
        List.Perm.append_left rest (insertRowDesc_perm r acc)
      exact h2.trans List.perm_middle

/-- `pySortTake` returns a score-descending list of at most `topK` rows. -/
theorem pySortTake_sorted_len (rows : List Row) (topK : Nat) :
    List.Pairwise (fun a b => b.score ≤ a.score) (pySortTake rows topK)
      ∧ (pySortTake rows topK).length ≤ topK := by
  constructor
  · exact List.Pairwise.sublist (List.take_sublist _ _) (pySortRowsDesc_pairwise rows)
  · simp only [pySortTake, List.length_take]
    omega

/-- **C2** (amended): both completion paths return a list sorted by score
descending and truncated to the first `k`; ties keep the candidate
iteration order of the stable sort (they are *not* re-ordered
lexicographically by `completed_sentence`). -/
theorem C2_sorted_by_score_desc_take_k (mode query : String) (idx : KGramState)
    (k : Nat) :
    List.Pairwise (fun a b => b.score ≤ a.score) (completeQuery mode query idx k)
      ∧ (completeQuery mode query idx k).length ≤ k := by
  unfold completeQuery
  split
  · unfold completeQuerySubstring
    dsimp only
    split
    · simp
    · exact pySortTake_sorted_len _ _
  · dsimp only
    exact pySortTake_sorted_len _ _

/-- **C2** (counterexample): on the corpus `["zz hello", "aa hello"]` and
query `"hello"` both results score 10, yet the lexicographically larger
`"zz hello"` comes first — the sort does not apply the claimed
`completed_sentence` tie-break. -/
theorem C2_tiebreak_counterexample :
    ((completeQuerySubstring "hello" tieIndex 5).map
        (fun r => (r.score, r.completedSentence)))
      = [(10, "zz hello"), (10, "aa hello")]
      ∧ ("aa hello".data < "zz hello".data) := by
  constructor
  · decide
  · decide

/-- **C5** (amended): on the corpus `["hello world"]` with query
`"helpo"`, the scorer's best is a substitution at 1-based position 4
(`p` vs `l`), scoring `2·(5-1) + (-2) = 6`, and the matched window is
`hello` (start 0, length 5). -/
theorem C5_hello_world_helpo_best :
    bestMatchInSentence helloWorldSentence "helpo"
      = some (2 * (5 - 1) + replacePenalty 4, 0, 5) := by decide

/-- **C5** (counterexample): the claimed best score
`2·(5-1) + (-3) = 5` is not what `_best_match_in_sentence` returns on
that corpus — the actual score is 6. -/
theorem C5_score_not_five :
    (bestMatchInSentence helloWorldSentence "helpo").map (fun r => r.1)
      = some 6 ∧ (6 : Int) ≠ 2 * (5 - 1) + (-3) := by
  constructor
  · decide
  · decide

/-- `augment_query` on a query whose normalization has no tokens returns
the query unchanged. -/
theorem augmentQuery_no_tokens (query : String) (idx : KGramState)
    (h : normalizeOnly query = "") :
    augmentQuery query idx
      = ⟨query, query, 0, [], decide (query.data.getLast? = some ' ')⟩ := by
  unfold augmentQuery
  rw [h]
  rfl

/-- **C8**: `complete_query` on the empty query, or on any query whose
normalization is empty, returns the empty list in both search modes (and,
being a total function of the model, raises nothing). -/
theorem C8_empty_query_returns_nil (mode query : String) (idx : KGramState)
    (k : Nat) (h : normalizeOnly query = "") :
    completeQuery mode query idx k = [] := by
  unfold completeQuery
  split
  · unfold completeQuerySubstring
    simp [h]
  · rw [augmentQuery_no_tokens query idx h]
    simp [h, candidatesForPrefixQuery, pySortTake, pySortRowsDesc,
      tokenizeWords, tokenizeChars, tokenizeAux]

/-- **C8** (witness): the empty query and a punctuation-only query on a
concrete engine state. -/
theorem C8_witness :
    completeQuery SEARCH_MODE "" toBeIndex TOP_K = []
      ∧ completeQuery "substring" "?!." toBeIndex 3 = [] := by
  constructor
  · exact C8_empty_query_returns_nil SEARCH_MODE "" toBeIndex TOP_K (by decide)
  · exact C8_empty_query_returns_nil "substring" "?!." toBeIndex 3 (by decide)

/-- Every replacement penalty is at most `-1`. -/
theorem replacePenalty_le (pos : Nat) : replacePenalty pos ≤ -1 := by
  unfold replacePenalty replaceTable
  split_ifs <;> omega

/-- Every insert/delete penalty is at most `-2`. -/
theorem insdelPenalty_le (pos : Nat) : insdelPenalty pos ≤ -2 := by
  unfold insdelPenalty insertDelTable
  split_ifs <;> omega

/-- `_choose_better` returns one of its two arguments. -/
theorem chooseBetter_eq_or (cur : Option MatchCand) (cand : MatchCand) :
    chooseBetter cur cand = some cand ∨ chooseBetter cur cand = cur := by
  unfold chooseBetter
  cases cur with
  | none => left; rfl
  | some c =>
      dsimp only
      split_ifs <;> simp

/-- A candidate fold whose inputs all score below `B` scores below `B`. -/
theorem foldCandidates_lt (B : Int) (n : Nat) (f : Nat → Option MatchCand)
    (init : Option MatchCand)
    (hi : ∀ c, init = some c → c.score < B)
    (hf : ∀ i c, f i = some c → c.score < B) :
    ∀ c, foldCandidates n f init = some c → c.score < B := by
  unfold foldCandidates
  suffices h : ∀ (l : List Nat) (acc : Option MatchCand),
      (∀ c, acc = some c → c.score < B) →
      ∀ c, (l.foldl (fun best i => match f i with
        | none => best
        | some cand => chooseBetter best cand) acc) = some c → c.score < B by
    exact h (List.range n) init hi
  intro l
  induction l with
  | nil => intro acc hacc; exact hacc
  | cons x xs ih =>
      intro acc hacc
      simp only [List.foldl_cons]
      apply ih
      intro c
      dsimp only
      cases hfx : f x with
      | none => exact hacc c
      | some cand =>
          intro hc
          have hc2 : chooseBetter acc cand = some c := hc
          rcases chooseBetter_eq_or acc cand with h | h
          · rw [h] at hc2
            obtain rfl := Option.some.inj hc2
            exact hf x _ hfx
          · rw [h] at hc2
            exact hacc c hc2

/-- An optional strategy (`if` around a candidate fold) preserves the
score bound. -/
theorem iteFoldCandidates_lt (B : Int) (P : Prop) [Decidable P] (n : Nat)
    (f : Nat → Option MatchCand) (init : Option MatchCand)
    (hi : ∀ c, init = some c → c.score < B)
    (hf : ∀ i c, f i = some c → c.score < B) :
    ∀ c, (if P then foldCandidates n f init else init) = some c → c.score < B := by
  split
  · exact foldCandidates_lt B n f init hi hf
  · exact hi

/-- With a nonempty query, an exact normalized-substring hit makes
`_best_match_in_sentence` return the leftmost occurrence with score
`2·|q|`. -/
theorem bestMatch_of_contains (s : Sentence) (qNorm : String)
    (hq : qNorm.data ≠ [])
    (hc : (pyFind s.normalized.data qNorm.data).isSome) :
    ∃ i, bestMatchInSentence s qNorm
      = some (2 * (qNorm.data.length : Int), i, qNorm.data.length) := by
  rcases hfind : pyFind s.normalized.data qNorm.data with _ | i
  · rw [hfind] at hc
    simp at hc
  · have hqe : qNorm.data.isEmpty = false := by
      cases hqd : qNorm.data with
      | nil => exact absurd hqd hq
      | cons a l => rfl
    have hsn : s.normalized.data.isEmpty = false := by
      cases hsd : s.normalized.data with
      | nil =>
          rw [hsd] at hfind
          exfalso
          unfold pyFind at hfind
          simp at hfind
          exact hq hfind.1
      | cons a l => rfl
    refine ⟨i, ?_⟩
    simp [bestMatchInSentence, hqe, hsn, hfind]

/-- Without an exact hit (and with a nonempty query), every score
`_best_match_in_sentence` can return is strictly below `2·|q|`. -/
theorem bestMatch_score_lt_of_not_contains (s : Sentence) (qNorm : String)
    (hq : qNorm.data ≠ [])
    (hc : pyFind s.normalized.data qNorm.data = none) :
    ∀ sc st w, bestMatchInSentence s qNorm = some (sc, st, w) →
      sc < 2 * (qNorm.data.length : Int) := by
  intro sc st w
  simp only [bestMatchInSentence, hc]
  cases hqe : qNorm.data.isEmpty with
  | true => simp [hqe]
  | false =>
    cases hse : s.normalized.data.isEmpty with
    | true => simp [hse]
    | false =>
      have hqn1 : 1 ≤ qNorm.data.length := by
        rcases hd : qNorm.data with _ | ⟨a, l⟩
        · exact absurd hd hq
        · simp [hd]
      intro hmap
      simp only [Bool.or_self, Bool.false_eq_true, if_false] at hmap
      rcases Option.map_eq_some'.mp hmap with ⟨c, hcand, hceq⟩
      have hsc : c.score = sc := by
        have h3 := hceq
        simp only [Prod.mk.injEq] at h3
        exact h3.1
      have hlt : c.score < 2 * (qNorm.data.length : Int) := by
        revert hcand
        apply iteFoldCandidates_lt
        · apply iteFoldCandidates_lt
          · apply foldCandidates_lt
            · intro c h
              cases h
            · intro i c h
              revert h
              cases hpos : hammingOne qNorm.data
                  ((s.normalized.data.drop i).take qNorm.data.length) with
              | none => intro h; cases h
              | some pos =>
                  intro h
                  cases h
                  have := replacePenalty_le pos
                  simp only
                  omega
          · intro i c h
            revert h
            cases hpos : oneAddedInQuery qNorm.data
                ((s.normalized.data.drop i).take (qNorm.data.length - 1)) with
            | none => intro h; cases h
            | some pos =>
                intro h
                cases h
                have h1 := insdelPenalty_le pos
                have h2 : ((qNorm.data.length - 1 : Nat) : Int)
                    ≤ (qNorm.data.length : Int) := by
                  have := Nat.sub_le qNorm.data.length 1
                  exact_mod_cast this
                simp only
                omega
        · intro i c h
          revert h
          cases hpos : oneMissingInQuery qNorm.data
              ((s.normalized.data.drop i).take (qNorm.data.length + 1)) with
          | none => intro h; cases h
          | some pos =>
              intro h
              cases h
              have := insdelPenalty_le pos
              simp only
              omega
      omega

/-- Indexing a list through `getD` over `range` reproduces the list. -/
theorem map_range_getD {α : Type} (l : List α) (d : α) :
    (List.range l.length).map (fun i => l.getD i d) = l := by
  apply List.ext_getElem
  · simp
  · intro i h1 h2
    simp only [List.getElem_map, List.getElem_range]
    exact List.getD_eq_getElem l d h2

/-- `filterMap` over `range`-indexed `getD` is `filterMap` over the list
(the shape of the candidate loops, whose candidate ids are
`range(num_sentences)`). -/
theorem filterMap_range_getD {α β : Type} (l : List α) (d : α) (G : α → Option β) :
    (List.range l.length).filterMap (fun i => G (l.getD i d)) = l.filterMap G := by
  have h : (fun i => G (l.getD i d)) = G ∘ (fun i => l.getD i d) := rfl
  rw [h, ← List.filterMap_map, map_range_getD]

/-- Counting hits among `filterMap` results through a pointwise
correspondence on the sources. -/
theorem countP_filterMap_congr {α β : Type} (l : List α) (f : α → Option β)
    (P : β → Bool) (Q : α → Bool)
    (h : ∀ a ∈ l, (match f a with | none => false | some b => P b) = Q a) :
    (l.filterMap f).countP P = l.countP Q := by
  induction l with
  | nil => simp
  | cons a as ih =>
      have ha := h a (by simp)
      have has : ∀ x ∈ as, (match f x with | none => false | some b => P b) = Q x :=
        fun x hx => h x (by simp [hx])
      cases hfa : f a with
      | none =>
          rw [hfa] at ha
          simp only [List.filterMap_cons, hfa, List.countP_cons, ← ha]
          simpa using ih has
      | some b =>
          rw [hfa] at ha
          simp only [List.filterMap_cons, hfa, List.countP_cons, ← ha]
          rw [ih has]

/-- In a score-descending list, a row scoring at least `B` lies among the
first `k` entries whenever at most `k` rows score at least `B`. -/
theorem mem_take_of_sorted_score (l : List Row) (B : Int) (k : Nat) (r : Row)
    (hsort : List.Pairwise (fun a b => b.score ≤ a.score) l)
    (hr : r ∈ l) (hscore : B ≤ r.score)
    (hk : l.countP (fun x => decide (B ≤ x.score)) ≤ k) :
    r ∈ l.take k := by
  obtain ⟨j, hj, rfl⟩ := List.mem_iff_getElem.mp hr
  have hall : ∀ i (hi : i < l.length), i ≤ j → B ≤ (l.get ⟨i, hi⟩).score := by
    intro i hi hij
    simp only [List.get_eq_getElem]
    rcases Nat.lt_or_ge i j with hlt | hge
    · have := List.pairwise_iff_getElem.mp hsort i j hi hj hlt
      omega
    · have : i = j := by omega
      subst this
      exact hscore
  have htake : (l.take (j + 1)).countP (fun x => decide (B ≤ x.score))
      = (l.take (j + 1)).length := by
    apply List.countP_eq_length.mpr
    intro a ha
    obtain ⟨i, hi, hieq⟩ := List.mem_iff_getElem.mp ha
    have hi2 : i < l.length := by
      have := List.length_take (j + 1) l
      omega
    have hlt : i < j + 1 := by
      have := List.length_take (j + 1) l
      omega
    have hgt : (l.take (j + 1))[i] = l[i] := List.getElem_take l
    rw [hgt] at hieq
    subst hieq
    simpa using hall i hi2 (by omega)
  have hlen : (l.take (j + 1)).length = j + 1 := by
    rw [List.length_take]
    omega
  have hcount : j + 1 ≤ l.countP (fun x => decide (B ≤ x.score)) := by
    have hsub := (List.take_sublist (j + 1) l).countP_le
      (fun x => decide (B ≤ x.score))
    omega
  have hjk : j < k := by omega
  have hjk2 : j < (l.take k).length := by
    rw [List.length_take]
    omega
  have : (l.take k)[j] = l[j] := List.getElem_take l
  exact this ▸ List.getElem_mem hjk2

/-- **C1** (amended): in substring mode (`SEARCH_MODE ≠ "prefix"`), for a
query with nonempty normalization, every sentence whose normalized text
contains the normalized query appears in `complete_query`'s output with
score exactly `2·|Q_norm|` (which is the maximum possible), provided `k`
is at least the number of such sentences.  In the default prefix mode the
claim fails (see the counterexample). -/
theorem C1_substring_contains_in_topk (mode query : String) (idx : KGramState)
    (k : Nat) (s : Sentence)
    (hmode : mode ≠ "prefix")
    (hs : s ∈ idx.sentences)
    (hq : (normalizeOnly query).data ≠ [])
    (hcont : (pyFind s.normalized.data (normalizeOnly query).data).isSome)
    (hk : (idx.sentences.filter (fun t =>
        (pyFind t.normalized.data (normalizeOnly query).data).isSome)).length ≤ k) :
    ∃ r ∈ completeQuery mode query idx k,
      r.completedSentence = s.original
        ∧ 2 * (((normalizeOnly query).data.length : Int)) ≤ r.score := by
  have hqne : normalizeOnly query ≠ "" := by
    intro h
    rw [h] at hq
    exact hq rfl
  unfold completeQuery
  rw [if_pos hmode]
  unfold completeQuerySubstring
  dsimp only
  rw [if_neg hqne, filterMap_range_getD idx.sentences default
    (mkSubRow (normalizeOnly query))]
  -- the row of `s`
  obtain ⟨i0, hbm⟩ := bestMatch_of_contains s (normalizeOnly query) hq hcont
  set qlen := (normalizeOnly query).data.length with hqlen
  set rS : Row := { score := 2 * (qlen : Int), offsetLo := i0, offsetHi := i0 + qlen,
                    sourceText := s.path, completedSentence := s.original } with hrS
  have hmk : mkSubRow (normalizeOnly query) s = some rS := by
    unfold mkSubRow
    rw [hbm]
  have hrmem : rS ∈ idx.sentences.filterMap (mkSubRow (normalizeOnly query)) :=
    List.mem_filterMap.mpr ⟨s, hs, hmk⟩
  -- counting: rows scoring ≥ 2·|q| correspond exactly to containing sentences
  have hcountrows : (idx.sentences.filterMap (mkSubRow (normalizeOnly query))).countP
        (fun x => decide (2 * (qlen : Int) ≤ x.score))
      = idx.sentences.countP
        (fun t => (pyFind t.normalized.data (normalizeOnly query).data).isSome) := by
    apply countP_filterMap_congr
    intro t _
    dsimp only
    cases hfind : pyFind t.normalized.data (normalizeOnly query).data with
    | some j =>
        obtain ⟨i1, hbm1⟩ := bestMatch_of_contains t (normalizeOnly query) hq
          (by rw [hfind]; rfl)
        unfold mkSubRow
        rw [hbm1]
        simp
        exact le_of_eq hqlen
    | none =>
        have hlt := bestMatch_score_lt_of_not_contains t (normalizeOnly query) hq hfind
        unfold mkSubRow
        rcases hbm2 : bestMatchInSentence t (normalizeOnly query) with _ | ⟨sc, st, w⟩
        · simp
        · have := hlt sc st w hbm2
          simp only [Option.isSome_none, decide_eq_false_iff_not]
          omega
  -- move to the sorted list
  set rows := idx.sentences.filterMap (mkSubRow (normalizeOnly query)) with hrows
  have hperm := pySortRowsDesc_perm rows
  have hsorted := pySortRowsDesc_pairwise rows
  have hmem2 : rS ∈ pySortRowsDesc rows := hperm.mem_iff.mpr hrmem
  have hcount2 : (pySortRowsDesc rows).countP
      (fun x => decide (2 * (qlen : Int) ≤ x.score)) ≤ k := by
    rw [hperm.countP_eq, hcountrows, List.countP_eq_length_filter]
    exact hk
  have htake := mem_take_of_sorted_score (pySortRowsDesc rows) (2 * (qlen : Int)) k rS
    hsorted hmem2 (by rw [hrS]) hcount2
  exact ⟨rS, htake, rfl, by rw [hrS]⟩

/-- **C1** (witness): corpus `["to be"]`, query `"to be"`, substring
mode, `k = 1`. -/
theorem C1_witness :
    ∃ r ∈ completeQuery "substring" "to be" toBeIndex 1,
      r.completedSentence = "to be"
        ∧ 2 * (((normalizeOnly "to be").data.length : Int)) ≤ r.score := by
  have h := C1_substring_contains_in_topk "substring" "to be" toBeIndex 1
    (toBeIndex.sentences.getD 0 default)
    (by decide) (by decide) (by decide) (by decide) (by decide)
  simpa using h

/-- **C1** (counterexample): under the configured `SEARCH_MODE`
(`"prefix"`), the corpus `["ahello"]` and query `"hello"`: the sentence's
normalized text contains the normalized query, `k = 5` exceeds the one
matching sentence, yet no returned result reaches score
`2·|Q_norm| = 10` (the only row scores 0, after the augmenter rewrites
the query to `ahello`). -/
theorem C1_prefix_mode_counterexample :
    (∃ s ∈ ahelloIndex.sentences,
        (pyFind s.normalized.data (normalizeOnly "hello").data).isSome
          ∧ s.original = "ahello")
      ∧ ¬ (∃ r ∈ completeQuery SEARCH_MODE "hello" ahelloIndex 5,
            r.completedSentence = "ahello"
              ∧ 2 * (((normalizeOnly "hello").data.length : Int)) ≤ r.score) := by
  constructor
  · decide
  · decide

/-- **C10**: `score_prefix_1edit` returns `None` exactly when the cleaned
strings have equal length and differ in two or more positions, or have
lengths two or more apart; when the cleaned lengths differ by exactly
one it always returns `base + indel_penalty(first divergence)` — no
check that a single edit suffices is performed on that branch. -/
theorem C10_scorePrefix1edit_none_iff (q t : String) :
    (scorePrefix1edit q t = none ↔
      ((pyClean q).length = (pyClean t).length
          ∧ 2 ≤ (diffPositions (pyClean q) (pyClean t)).length)
        ∨ (pyClean q).length + 2 ≤ (pyClean t).length
        ∨ (pyClean t).length + 2 ≤ (pyClean q).length)
    ∧ ((pyClean q).length = (pyClean t).length + 1
          ∨ (pyClean t).length = (pyClean q).length + 1 →
        scorePrefix1edit q t
          = some (2 * ((min (pyClean q).length (pyClean t).length : Nat) : Int)
              + pAddmiss (commonPrefixLen (pyClean q) (pyClean t) + 1))) := by
  unfold scorePrefix1edit
  dsimp only
  by_cases h1 : (pyClean q).length = (pyClean t).length
  · rw [if_pos h1]
    rcases hd : diffPositions (pyClean q) (pyClean t) with _ | ⟨p, _ | ⟨p2, rest⟩⟩
    · constructor
      · simp [hd]
        omega
      · intro h2
        omega
    · constructor
      · simp [hd]
        omega
      · intro h2
        omega
    · constructor
      · simp [hd, h1]
      · intro h2
        omega
  · rw [if_neg h1]
    by_cases h2 : (pyClean q).length = (pyClean t).length + 1
        ∨ (pyClean t).length = (pyClean q).length + 1
    · have hcond : (decide ((pyClean q).length = (pyClean t).length + 1)
          || decide ((pyClean t).length = (pyClean q).length + 1)) = true := by
        rcases h2 with h2 | h2 <;> simp [h2]
      rw [if_pos hcond]
      constructor
      · simp only [Option.some_ne_none, false_iff]
        push_neg
        rcases h2 with h2 | h2
        · exact ⟨fun hh => absurd hh h1, by omega, by omega⟩
        · exact ⟨fun hh => absurd hh h1, by omega, by omega⟩
      · intro _
        rfl
    · push_neg at h2
      have hcond : (decide ((pyClean q).length = (pyClean t).length + 1)
          || decide ((pyClean t).length = (pyClean q).length + 1)) = false := by
        simp [h2.1, h2.2]
      rw [if_neg (by simp [hcond])]
      constructor
      · simp only [true_iff]
        right
        omega
      · intro hcontra
        rcases hcontra with hh | hh
        · exact absurd hh h2.1
        · exact absurd hh h2.2

/-- **C10** (witness): cleaned `"carrot"`/`"carot"` have lengths 6 and 5;
the first divergence is at position 4, so the score is `10 - 4 = 6`. -/
theorem C10_witness : scorePrefix1edit "carrot" "carot" = some 6 := by
  have h := (C10_scorePrefix1edit_none_iff "carrot" "carot").2 (by decide)
  rw [h]
  decide

/-- **C9**: on an opened `CorpusDB`, `get_sentence` fails with
`KeyError(sid)` exactly on ids absent from the table, and
`iter_sentences` yields, in the given order, precisely the records of
the present ids — i.e. it is `get_sentence` mapped over the ids that
survive the presence filter, silently skipping the rest. -/
theorem C9_get_notfound_iter_skips (db : CorpusDB) :
    (∀ sid, dictLookup db.idxTable sid = none →
        getSentence db sid = .error (.keyError sid))
    ∧ (∀ ids : List Nat,
        iterSentences db ids
          = (ids.filter (fun sid => (dictLookup db.idxTable sid).isSome)).mapM
              (fun sid => getSentence db sid)) := by
  constructor
  · intro sid h
    unfold getSentence
    rw [h]
  · intro ids
    induction ids with
    | nil => rfl
    | cons sid rest ih =>
        cases hl : dictLookup db.idxTable sid with
        | none =>
            simp only [iterSentences, hl, List.filter_cons, hl, Option.isSome_none,
              Bool.false_eq_true, if_false]
            exact ih
        | some off =>
            simp only [iterSentences, hl, List.filter_cons, Option.isSome_some, if_pos]
            rw [List.mapM_cons]
            unfold getSentence
            rw [hl]
            dsimp only
            cases hr : readRecord db.mm off with
            | error e => rfl
            | ok s =>
                show iterSentences db rest >>= (fun l => Except.ok (s :: l))
                  = _
                rw [ih]
                rfl

/-- **C9** (witness): a concrete store with ids 0 and 2: id 1 raises
`KeyError(1)` from `get_sentence`, while `iter_sentences([0, 1, 2])`
yields the two present records in order. -/
theorem C9_witness :
    getSentence hiDb 1 = .error (.keyError 1)
      ∧ iterSentences hiDb [0, 1, 2] = .ok [hiSentence, hiSentence] := by
  constructor
  · exact (C9_get_notfound_iter_skips hiDb).1 1 (by decide)
  · have h := (C9_get_notfound_iter_skips hiDb).2 [0, 1, 2]
    rw [h]
    decide

/-- `pyStrLt` is irreflexive. -/
theorem pyStrLt_self (a : String) : pyStrLt a a = false := by
  simp [pyStrLt]

/-- The code's preference relation is reflexive. -/
theorem tripleGE_refl (ps : List (String × List (Nat × Nat))) (tok u : String) :
    tripleGE ps tok u u := by
  right
  exact ⟨rfl, Or.inr ⟨rfl, pyStrLt_self u⟩⟩

/-- The code's preference relation is transitive. -/
theorem tripleGE_trans (ps : List (String × List (Nat × Nat))) (tok a b c : String)
    (h1 : tripleGE ps tok a b) (h2 : tripleGE ps tok b c) : tripleGE ps tok a c := by
  unfold tripleGE at *
  simp only [pyStrLt, decide_eq_false_iff_not] at *
  rcases h1 with h1 | ⟨e1, h1⟩
  · rcases h2 with h2 | ⟨e2, h2⟩
    · left; omega
    · left; omega
  · rcases h2 with h2 | ⟨e2, h2⟩
    · left; omega
    · right
      refine ⟨by omega, ?_⟩
      rcases h1 with h1 | ⟨p1, h1⟩
      · rcases h2 with h2 | ⟨p2, h2⟩
        · left; omega
        · left; omega
      · rcases h2 with h2 | ⟨p2, h2⟩
        · left; omega
        · right
          refine ⟨by omega, ?_⟩
          intro hca
          exact h2 (lt_of_lt_of_le hca (le_of_not_lt h1))

/-- One step of `choose_range`'s loop: the accumulator invariant is
preserved, the new best is at least as preferred as the old one and as
the incoming term (when it passes the filters), and the best only ever
changes to the incoming term. -/
theorem chooseStep_spec (ps : List (String × List (Nat × Nat))) (tok : String)
    (tokHasAlpha alphaOnly : Bool) (acc : ChooseAcc) (x : String)
    (hInv : ∀ b, acc.bestTerm = some b →
      acc.bestTf = (termFreq ps b : Int) ∧ acc.bestPen = (within1editPen tok b).2
        ∧ chooseFilter tok tokHasAlpha alphaOnly b = true) :
    (∀ b, (chooseStep ps tok tokHasAlpha alphaOnly acc x).bestTerm = some b →
      (chooseStep ps tok tokHasAlpha alphaOnly acc x).bestTf = (termFreq ps b : Int)
        ∧ (chooseStep ps tok tokHasAlpha alphaOnly acc x).bestPen
            = (within1editPen tok b).2
        ∧ chooseFilter tok tokHasAlpha alphaOnly b = true)
    ∧ (∀ b, acc.bestTerm = some b →
        ∃ w, (chooseStep ps tok tokHasAlpha alphaOnly acc x).bestTerm = some w
          ∧ tripleGE ps tok w b)
    ∧ (chooseFilter tok tokHasAlpha alphaOnly x = true →
        ∃ w, (chooseStep ps tok tokHasAlpha alphaOnly acc x).bestTerm = some w
          ∧ tripleGE ps tok w x)
    ∧ (∀ u, (chooseStep ps tok tokHasAlpha alphaOnly acc x).bestTerm = some u →
        acc.bestTerm = some u ∨ u = x) := by
  unfold chooseStep
  cases hfx : chooseFilter tok tokHasAlpha alphaOnly x with
  | false =>
      rw [if_neg (by simp)]
      exact ⟨hInv, fun b hb => ⟨b, hb, tripleGE_refl ps tok b⟩,
        fun hx => absurd hx (by simp [hfx]), fun u hu => Or.inl hu⟩
  | true =>
      rw [if_pos rfl]
      dsimp only
      cases hbt : acc.bestTerm with
      | none =>
          rw [if_pos rfl]
          refine ⟨?_, ?_, ?_, ?_⟩
          · intro b hb
            obtain rfl := Option.some.inj hb
            exact ⟨rfl, rfl, hfx⟩
          · intro b hb
            cases hb
          · intro _
            exact ⟨x, rfl, tripleGE_refl ps tok x⟩
          · intro u hu
            exact Or.inr (Option.some.inj hu).symm
      | some b0 =>
          obtain ⟨htf0, hpen0, hf0⟩ := hInv b0 hbt
          by_cases hbeats : ((decide ((termFreq ps x : Int) > acc.bestTf)
              || (decide ((termFreq ps x : Int) = acc.bestTf)
                  && decide ((within1editPen tok x).2 > acc.bestPen))
              || (decide ((termFreq ps x : Int) = acc.bestTf)
                  && decide ((within1editPen tok x).2 = acc.bestPen)
                  && pyStrLt x b0)) = true)
          · rw [if_pos hbeats]
            have hge : tripleGE ps tok x b0 := by
              unfold tripleGE
              simp only [Bool.or_eq_true, Bool.and_eq_true, decide_eq_true_eq,
                gt_iff_lt] at hbeats
              rw [htf0, hpen0] at hbeats
              rcases hbeats with (h | ⟨h1, h2⟩) | ⟨⟨h1, h2⟩, h3⟩
              · left; omega
              · right
                exact ⟨by omega, Or.inl (by omega)⟩
              · right
                refine ⟨by omega, Or.inr ⟨by omega, ?_⟩⟩
                simp only [pyStrLt, decide_eq_true_eq] at h3
                simp only [pyStrLt, decide_eq_false_iff_not]
                exact fun hlt => absurd (lt_trans hlt h3) (lt_irrefl _)
            refine ⟨?_, ?_, ?_, ?_⟩
            · intro b hb
              obtain rfl := Option.some.inj hb
              exact ⟨rfl, rfl, hfx⟩
            · intro b hb
              obtain rfl := Option.some.inj hb
              exact ⟨x, rfl, hge⟩
            · intro _
              exact ⟨x, rfl, tripleGE_refl ps tok x⟩
            · intro u hu
              exact Or.inr (Option.some.inj hu).symm
          · rw [if_neg hbeats]
            have hge : tripleGE ps tok b0 x := by
              unfold tripleGE
              simp only [Bool.or_eq_true, Bool.and_eq_true, decide_eq_true_eq,
                gt_iff_lt, not_or, not_and] at hbeats
              rw [htf0, hpen0] at hbeats
              obtain ⟨⟨h1, h2⟩, h3⟩ := hbeats
              rcases lt_trichotomy ((termFreq ps x : Int)) ((termFreq ps b0 : Int))
                  with ht | ht | ht
              · left; omega
              · right
                refine ⟨by omega, ?_⟩
                have h2' : ¬ (within1editPen tok b0).2 < (within1editPen tok x).2 :=
                  fun hp => by
                    have := h2 ht
                    omega
                rcases lt_trichotomy ((within1editPen tok x).2)
                    ((within1editPen tok b0).2) with hp | hp | hp
                · left; omega
                · right
                  refine ⟨by omega, ?_⟩
                  have := h3 ⟨ht, hp⟩
                  simpa using this
                · exact absurd hp h2'
              · omega
            refine ⟨?_, ?_, ?_, ?_⟩
            · exact hInv
            · intro b hb
              obtain rfl := Option.some.inj hb
              exact ⟨b0, hbt, tripleGE_refl ps tok b0⟩
            · intro _
              exact ⟨b0, hbt, hge⟩
            · intro u hu
              rw [hbt] at hu
              exact Or.inl hu

/-- The whole `choose_range` loop: invariant, dominance over every
passing input term, and provenance of the final best. -/
theorem chooseFold_spec (ps : List (String × List (Nat × Nat))) (tok : String)
    (tha ao : Bool) (it : List String) (acc : ChooseAcc)
    (hInv : ∀ b, acc.bestTerm = some b →
      acc.bestTf = (termFreq ps b : Int) ∧ acc.bestPen = (within1editPen tok b).2
        ∧ chooseFilter tok tha ao b = true) :
    (∀ b, (it.foldl (chooseStep ps tok tha ao) acc).bestTerm = some b →
      (it.foldl (chooseStep ps tok tha ao) acc).bestTf = (termFreq ps b : Int)
        ∧ (it.foldl (chooseStep ps tok tha ao) acc).bestPen
            = (within1editPen tok b).2
        ∧ chooseFilter tok tha ao b = true)
    ∧ (∀ b, acc.bestTerm = some b →
        ∃ w, (it.foldl (chooseStep ps tok tha ao) acc).bestTerm = some w
          ∧ tripleGE ps tok w b)
    ∧ (∀ x ∈ it, chooseFilter tok tha ao x = true →
        ∃ w, (it.foldl (chooseStep ps tok tha ao) acc).bestTerm = some w
          ∧ tripleGE ps tok w x)
    ∧ (∀ u, (it.foldl (chooseStep ps tok tha ao) acc).bestTerm = some u →
        acc.bestTerm = some u ∨ u ∈ it) := by
  induction it generalizing acc with
  | nil =>
      refine ⟨hInv, fun b hb => ⟨b, hb, tripleGE_refl ps tok b⟩, ?_, fun u hu => Or.inl hu⟩
      intro x hx
      cases hx
  | cons x xs ih =>
      obtain ⟨S1, S2, S3, S4⟩ := chooseStep_spec ps tok tha ao acc x hInv
      obtain ⟨I1, I2, I3, I4⟩ := ih (chooseStep ps tok tha ao acc x) S1
      simp only [List.foldl_cons]
      refine ⟨I1, ?_, ?_, ?_⟩
      · intro b hb
        obtain ⟨w1, hw1, hge1⟩ := S2 b hb
        obtain ⟨w2, hw2, hge2⟩ := I2 w1 hw1
        exact ⟨w2, hw2, tripleGE_trans ps tok w2 w1 b hge2 hge1⟩
      · intro y hy hfy
        rcases List.mem_cons.mp hy with rfl | hy2
        · obtain ⟨w1, hw1, hge1⟩ := S3 hfy
          obtain ⟨w2, hw2, hge2⟩ := I2 w1 hw1
          exact ⟨w2, hw2, tripleGE_trans ps tok w2 w1 y hge2 hge1⟩
        · exact I3 y hy2 hfy
      · intro u hu
        rcases I4 u hu with h | h
        · rcases S4 u h with h2 | h2
          · exact Or.inl h2
          · exact Or.inr (by simp [h2])
        · exact Or.inr (by simp [h])

/-- When `choose_range` returns a term, that term came from the scanned
list, passes every filter, carries its own penalty, and is preferred to
every passing term of the list. -/
theorem chooseRange_some (ps : List (String × List (Nat × Nat))) (tok : String)
    (tha ao : Bool) (it : List String) (u : String) (pen : Int)
    (h : chooseRange ps tok tha ao it = (some u, pen)) :
    u ∈ it ∧ chooseFilter tok tha ao u = true ∧ pen = (within1editPen tok u).2
      ∧ ∀ x ∈ it, chooseFilter tok tha ao x = true → tripleGE ps tok u x := by
  obtain ⟨C1, _, C3, C4⟩ := chooseFold_spec ps tok tha ao it ⟨none, -1, -10000⟩
    (by intro b hb; cases hb)
  unfold chooseRange at h
  dsimp only at h
  have h1 : (it.foldl (chooseStep ps tok tha ao) ⟨none, -1, -10000⟩).bestTerm
      = some u := congrArg Prod.fst h
  have h2 : (it.foldl (chooseStep ps tok tha ao) ⟨none, -1, -10000⟩).bestPen
      = pen := congrArg Prod.snd h
  have hmem : u ∈ it := by
    rcases C4 u h1 with hcontra | hm
    · cases hcontra
    · exact hm
  obtain ⟨_, hpen, hfil⟩ := C1 u h1
  refine ⟨hmem, hfil, by rw [← h2, hpen], ?_⟩
  intro x hx hfx
  obtain ⟨w, hw, hge⟩ := C3 x hx hfx
  rw [h1] at hw
  obtain rfl := Option.some.inj hw.symm
  exact hge

/-- When no scanned term passes the filters, `choose_range` finds
nothing. -/
theorem chooseRange_eq_none (ps : List (String × List (Nat × Nat))) (tok : String)
    (tha ao : Bool) (it : List String)
    (h : ∀ x ∈ it, chooseFilter tok tha ao x = false) :
    (chooseRange ps tok tha ao it).1 = none := by
  obtain ⟨C1, _, _, C4⟩ := chooseFold_spec ps tok tha ao it ⟨none, -1, -10000⟩
    (by intro b hb; cases hb)
  unfold chooseRange
  dsimp only
  cases hr : (it.foldl (chooseStep ps tok tha ao) ⟨none, -1, -10000⟩).bestTerm with
  | none => rfl
  | some w =>
      exfalso
      have hmem : w ∈ it := by
        rcases C4 w hr with hcontra | hm
        · cases hcontra
        · exact hm
      obtain ⟨_, _, hfil⟩ := C1 w hr
      rw [h w hmem] at hfil
      cases hfil

/-- The alphabetic-only pass is a restriction of the unrestricted pass:
any term passing with `alpha_only=True` also passes with
`alpha_only=False`. -/
theorem chooseFilter_mono (tok : String) (tha : Bool) (x : String)
    (h : chooseFilter tok tha true x = true) :
    chooseFilter tok tha false x = true := by
  unfold chooseFilter at h ⊢
  simp only [Bool.and_eq_true] at h ⊢
  exact ⟨⟨⟨h.1.1.1, by simp⟩, h.1.2⟩, h.2⟩

/-- Every band term is a lexicon term. -/
theorem c7Band_subset (L : List String) (tok x : String) (hx : x ∈ c7Band L tok) :
    x ∈ L := by
  unfold c7Band at hx
  exact List.mem_of_mem_drop (List.mem_of_mem_take hx)

/-- **C7** (amended): for a token `tok` with no exact lexicon hit,
`augment_query`'s replacement search runs in hard phases rather than
using alphabeticness as a final tie-break criterion: (1) when the token
contains a letter, the first phase admits only all-alphabetic lexicon
terms of the ±3000 band, and its winner — if any — is returned and
maximizes term frequency, then penalty, then lexicographic smallness
(`tripleGE`) among the alphabetic candidates; (2) only when that phase
is empty (or the token has no letter) does the unrestricted band phase
run, with the same `(tf, pen, lex)` maximization; (3) when no lexicon
term passes the unrestricted filters at all, the token is kept with
penalty 0.  Terms containing a digit are excluded outright whenever the
token has a letter (inside `chooseFilter`), not merely deprioritized. -/
theorem C7_correctToken_argmax (L : List String)
    (ps : List (String × List (Nat × Nat))) (tok : String)
    (hmiss : ¬ (bisectLeft L tok < L.length
        ∧ L.getD (bisectLeft L tok) "" = tok)) :
    (∀ u pen, c7HasAlpha tok = true →
        chooseRange ps tok (c7HasAlpha tok) true (c7Band L tok) = (some u, pen) →
        correctToken L ps tok = (u, pen)
          ∧ u ∈ c7Band L tok
          ∧ chooseFilter tok (c7HasAlpha tok) true u = true
          ∧ pen = (within1editPen tok u).2
          ∧ ∀ x ∈ c7Band L tok,
              chooseFilter tok (c7HasAlpha tok) true x = true →
                tripleGE ps tok u x)
    ∧ (∀ u pen,
        (c7HasAlpha tok = false
          ∨ (chooseRange ps tok (c7HasAlpha tok) true (c7Band L tok)).1 = none) →
        chooseRange ps tok (c7HasAlpha tok) false (c7Band L tok) = (some u, pen) →
        correctToken L ps tok = (u, pen)
          ∧ u ∈ c7Band L tok
          ∧ chooseFilter tok (c7HasAlpha tok) false u = true
          ∧ pen = (within1editPen tok u).2
          ∧ ∀ x ∈ c7Band L tok,
              chooseFilter tok (c7HasAlpha tok) false x = true →
                tripleGE ps tok u x)
    ∧ ((∀ x ∈ L, chooseFilter tok (c7HasAlpha tok) false x = false) →
        correctToken L ps tok = (tok, 0)) := by
  have hcond : ¬ ((decide (bisectLeft L tok < L.length)
      && decide (L.getD (bisectLeft L tok) "" = tok)) = true) := by
    simp only [Bool.and_eq_true, decide_eq_true_eq]
    exact hmiss
  have hband : (L.drop (bisectLeft L tok - 3000)).take
      (min L.length (bisectLeft L tok + 3000) - (bisectLeft L tok - 3000))
      = c7Band L tok := rfl
  refine ⟨?_, ?_, ?_⟩
  · intro u pen htha hcr
    obtain ⟨hmem, hfil, hpen, hmax⟩ :=
      chooseRange_some ps tok (c7HasAlpha tok) true (c7Band L tok) u pen hcr
    refine ⟨?_, hmem, hfil, hpen, hmax⟩
    unfold correctToken
    dsimp only
    rw [if_neg hcond, hband]
    rw [show tok.data.any (fun c => 'a' ≤ c && c ≤ 'z') = true from htha]
    rw [if_pos rfl]
    rw [htha] at hcr
    rw [hcr]
  · intro u pen hfirst hcr
    obtain ⟨hmem, hfil, hpen, hmax⟩ :=
      chooseRange_some ps tok (c7HasAlpha tok) false (c7Band L tok) u pen hcr
    refine ⟨?_, hmem, hfil, hpen, hmax⟩
    unfold correctToken
    dsimp only
    rw [if_neg hcond, hband]
    rcases hfirst with htha | hnone
    · rw [show tok.data.any (fun c => 'a' ≤ c && c ≤ 'z') = c7HasAlpha tok from rfl,
        htha]
      rw [if_neg (by simp)]
      rw [htha] at hcr
      rw [hcr]
    · cases htha : c7HasAlpha tok with
      | false =>
          rw [show tok.data.any (fun c => 'a' ≤ c && c ≤ 'z') = c7HasAlpha tok
            from rfl, htha]
          rw [if_neg (by simp)]
          rw [htha] at hcr
          rw [hcr]
      | true =>
          rw [show tok.data.any (fun c => 'a' ≤ c && c ≤ 'z') = c7HasAlpha tok
            from rfl, htha]
          rw [if_pos rfl]
          rw [htha] at hcr hnone
          rcases hr1 : chooseRange ps tok true true (c7Band L tok) with ⟨o1, p1⟩
          rw [hr1] at hnone
          dsimp only at hnone
          subst hnone
          rw [hcr]
  · intro hall
    have hallT : ∀ x ∈ L, chooseFilter tok (c7HasAlpha tok) true x = false := by
      intro x hx
      cases hfx : chooseFilter tok (c7HasAlpha tok) true x with
      | false => rfl
      | true =>
          have h1 := chooseFilter_mono tok (c7HasAlpha tok) x hfx
          rw [hall x hx] at h1
          exact h1.symm
    have hallB : ∀ x ∈ c7Band L tok, chooseFilter tok (c7HasAlpha tok) false x
        = false := fun x hx => hall x (c7Band_subset L tok x hx)
    have hallBT : ∀ x ∈ c7Band L tok, chooseFilter tok (c7HasAlpha tok) true x
        = false := fun x hx => hallT x (c7Band_subset L tok x hx)
    have hn1 := chooseRange_eq_none ps tok (c7HasAlpha tok) true (c7Band L tok) hallBT
    have hn2 := chooseRange_eq_none ps tok (c7HasAlpha tok) false (c7Band L tok) hallB
    have hn3 := chooseRange_eq_none ps tok (c7HasAlpha tok) true L hallT
    have hn4 := chooseRange_eq_none ps tok (c7HasAlpha tok) false L hall
    unfold correctToken
    dsimp only
    rw [if_neg hcond, hband]
    rw [show tok.data.any (fun c => 'a' ≤ c && c ≤ 'z') = c7HasAlpha tok from rfl]
    rcases hr1 : chooseRange ps tok (c7HasAlpha tok) true (c7Band L tok)
        with ⟨o1, p1⟩
    rcases hr2 : chooseRange ps tok (c7HasAlpha tok) false (c7Band L tok)
        with ⟨o2, p2⟩
    rcases hr3 : chooseRange ps tok (c7HasAlpha tok) true L with ⟨o3, p3⟩
    rcases hr4 : chooseRange ps tok (c7HasAlpha tok) false L with ⟨o4, p4⟩
    rw [hr1] at hn1
    rw [hr2] at hn2
    rw [hr3] at hn3
    rw [hr4] at hn4
    dsimp only at hn1 hn2 hn3 hn4
    subst hn1
    subst hn2
    subst hn3
    subst hn4
    cases htha : c7HasAlpha tok with
    | true =>
        rw [if_pos rfl]
        dsimp only
        cases hthd : tok.data.any pyIsDigit with
        | true => rfl
        | false => rfl
    | false =>
        rw [if_neg (by simp)]
        dsimp only
        rw [if_neg (by simp)]

/-- **C7** (witness): lexicon `["cat", "cat1"]`, token `"cat5"` (no exact
hit).  The alphabetic first phase finds `"cat"` with penalty `-4`, so
`correct_token` returns it and it dominates every alphabetic band
candidate. -/
theorem C7_witness :
    correctToken ["cat", "cat1"] catPostings "cat5" = ("cat", -4)
      ∧ "cat" ∈ c7Band ["cat", "cat1"] "cat5"
      ∧ ∀ x ∈ c7Band ["cat", "cat1"] "cat5",
          chooseFilter "cat5" (c7HasAlpha "cat5") true x = true →
            tripleGE catPostings "cat5" "cat" x := by
  have h := (C7_correctToken_argmax ["cat", "cat1"] catPostings "cat5"
      (by decide)).1 "cat" (-4) (by decide) (by decide)
  exact ⟨h.1, h.2.1, h.2.2.2.2⟩

/-- **C7** (counterexample to the spec's criterion order): on the same
inputs the spec's rule — term frequency first, then penalty, then
lexicographic order, with alphabeticness only as the last criterion —
picks the digit-bearing high-frequency term `"cat1"`, but the code picks
the alphabetic low-frequency `"cat"`: alphabetic terms are preferred in a
hard first phase (and digit terms banned), not as a last tie-break. -/
theorem C7_spec_order_counterexample :
    specAugmentChoice ["cat", "cat1"] catPostings "cat5" = some "cat1"
      ∧ (correctToken ["cat", "cat1"] catPostings "cat5").1 = "cat" := by
  exact ⟨by decide, by decide⟩

/-- **C3**: the mapping invariant `|M| = |N|` fails.  On input `"ß"` the
normalizer emits the two code points `"ss"` for the single input
character but appends only one mapping entry, so the mapping is one
short of the normalized length (the function's own docstring, and the
spec, promise equality). -/
theorem C3_mapping_length_mismatch :
    (normalizeAndMap "ß").1.data.length = 2
      ∧ (normalizeAndMap "ß").2.length = 1 := by
  exact ⟨by decide, by decide⟩

/-- An alphanumeric character is not whitespace. -/
theorem alnum_not_space (c : Char) (h : pyIsAlnum c = true) :
    pyIsSpace c = false := by
  cases hs : pyIsSpace c with
  | false => rfl
  | true =>
      exfalso
      unfold pyIsSpace at hs
      simp only [Bool.or_eq_true, decide_eq_true_eq] at hs
      rcases hs with ((((h1 | h1) | h1) | h1) | h1) | h1 <;> subst h1 <;>
        revert h <;> decide

/-- `Char.ofNat` inverts `Char.toNat` on valid scalar values. -/
theorem char_toNat_ofNat (n : Nat) (h : Nat.isValidChar n) :
    (Char.ofNat n).toNat = n := by
  simp [Char.ofNat, h, Char.ofNatAux, Char.toNat, UInt32.ofNat',
    UInt32.toNat, BitVec.toNat_ofNatLt]

/-- The casefold of an alphanumeric character is a nonempty list of
non-space characters. -/
theorem casefold_alnum_space_free (c : Char) (h : pyIsAlnum c = true) :
    pyCasefold c ≠ [] ∧ ∀ d ∈ pyCasefold c, d ≠ ' ' := by
  unfold pyCasefold
  split_ifs with h1 h2 h3
  · simp only [Bool.and_eq_true, decide_eq_true_eq] at h1
    have hlo : 65 ≤ c.toNat := h1.1
    have hhi : c.toNat ≤ 90 := h1.2
    refine ⟨by simp, ?_⟩
    intro d hd heq
    rw [List.mem_singleton] at hd
    subst hd
    have hv : Nat.isValidChar (c.toNat + 32) := Or.inl (by omega)
    have ht := congrArg Char.toNat heq
    rw [char_toNat_ofNat (c.toNat + 32) hv] at ht
    have : (' ' : Char).toNat = 32 := by decide
    omega
  · exact ⟨by simp, by decide⟩
  · exact ⟨by simp, by decide⟩
  · refine ⟨by simp, ?_⟩
    intro d hd heq
    rw [List.mem_singleton] at hd
    subst hd
    subst heq
    revert h
    decide

/-- Flattening a list of singletons gives back the list. -/
theorem flatten_map_singleton {α : Type} (l : List α) :
    (l.map (fun c => [c])).flatten = l := by
  induction l with
  | nil => rfl
  | cons a t ih => simp [ih]

/-- A list without spaces has no two adjacent spaces. -/
theorem chain_of_space_free (k : List Char) (h : ∀ d ∈ k, d ≠ ' ') :
    List.Chain' (fun a b => ¬(a = ' ' ∧ b = ' ')) k := by
  induction k with
  | nil => exact List.chain'_nil
  | cons a t ih =>
      rw [List.chain'_cons']
      refine ⟨?_, ih (fun d hd => h d (by simp [hd]))⟩
      intro y _ hy
      exact h a (by simp) hy.1

/-- The last element of the concatenation of chunks whose last chunk is
nonempty is the last element of that chunk. -/
theorem flatten_getLast (out : List (List Char)) (k : List Char)
    (hlast : out.getLast? = some k) (hne : k ≠ []) :
    out.flatten.getLast? = k.getLast? := by
  induction out with
  | nil => cases hlast
  | cons a t ih =>
      cases t with
      | nil =>
          obtain rfl := Option.some.inj hlast
          simp
      | cons b t2 =>
          have h2 : (b :: t2).getLast? = some k := by
            rw [← hlast]
            rfl
          have h3 := ih h2
          have h4 : (b :: t2).flatten ≠ [] := by
            intro hcontra
            rw [hcontra] at h3
            have h5 : k.getLast? = none := h3.symm
            rw [List.getLast?_eq_none_iff] at h5
            exact hne h5
          rw [List.flatten_cons, List.getLast?_append_of_ne_nil a h4]
          exact h3

/-- One normalizer step preserves the output-shape invariant: no two
adjacent spaces, no leading space, and a nonempty space-free last chunk. -/
theorem normStep_inv (st : NormState) (i : Nat) (c : Char)
    (h1 : List.Chain' (fun a b => ¬(a = ' ' ∧ b = ' ')) st.out.flatten)
    (h2 : st.out.flatten.head? ≠ some ' ')
    (h3 : ∀ k, st.out.getLast? = some k → k ≠ [] ∧ ∀ d ∈ k, d ≠ ' ') :
    List.Chain' (fun a b => ¬(a = ' ' ∧ b = ' ')) (normStep st i c).out.flatten
      ∧ (normStep st i c).out.flatten.head? ≠ some ' '
      ∧ ∀ k, (normStep st i c).out.getLast? = some k →
          k ≠ [] ∧ ∀ d ∈ k, d ≠ ' ' := by
  unfold normStep
  cases hsp : pyIsSpace c with
  | true =>
      rw [if_pos rfl]
      exact ⟨h1, h2, h3⟩
  | false =>
      rw [if_neg (by simp)]
      cases han : pyIsAlnum c with
      | false =>
          rw [if_neg (by simp)]
          exact ⟨h1, h2, h3⟩
      | true =>
          rw [if_pos rfl]
          obtain ⟨hKne, hKsf⟩ := casefold_alnum_space_free c han
          cases hins : (st.lastWasSpace && !st.out.isEmpty) with
          | false =>
              rw [if_neg (by simp)]
              dsimp only
              constructor
              · rw [List.flatten_append]
                rw [List.chain'_append]
                refine ⟨h1, ?_, ?_⟩
                · simp only [List.flatten_cons, List.flatten_nil,
                    List.append_nil]
                  exact chain_of_space_free (pyCasefold c) hKsf
                · intro x _ y hy hxy
                  simp only [List.flatten_cons, List.flatten_nil,
                    List.append_nil] at hy
                  exact hKsf y (List.mem_of_mem_head? hy) hxy.2
              constructor
              · rw [List.flatten_append]
                cases hfl : st.out.flatten with
                | nil =>
                    simp only [List.nil_append, List.flatten_cons,
                      List.flatten_nil, List.append_nil]
                    intro hcontra
                    exact hKsf ' ' (List.mem_of_mem_head? hcontra) rfl
                | cons a t =>
                    rw [List.cons_append, List.head?_cons]
                    rw [hfl, List.head?_cons] at h2
                    exact h2
              · intro k hk
                rw [List.getLast?_concat] at hk
                obtain rfl := Option.some.inj hk
                exact ⟨hKne, hKsf⟩
          | true =>
              rw [if_pos rfl]
              dsimp only
              simp only [Bool.and_eq_true, Bool.not_eq_true'] at hins
              obtain ⟨hlw, hone⟩ := hins
              have houtne : st.out ≠ [] := by
                intro hcontra
                rw [hcontra] at hone
                cases hone
              have hgne : st.out.getLast? ≠ none :=
                fun hcontra => houtne (List.getLast?_eq_none_iff.mp hcontra)
              obtain ⟨k0, hk0⟩ := Option.ne_none_iff_exists.mp hgne
              obtain ⟨hk0ne, hk0sf⟩ := h3 k0 hk0.symm
              have hflast : st.out.flatten.getLast? = k0.getLast? :=
                flatten_getLast st.out k0 hk0.symm hk0ne
              have hflne : st.out.flatten ≠ [] := by
                intro hcontra
                rw [hcontra] at hflast
                exact hk0ne (List.getLast?_eq_none_iff.mp hflast.symm)
              constructor
              · rw [List.append_assoc, List.flatten_append]
                rw [List.chain'_append]
                refine ⟨h1, ?_, ?_⟩
                · simp only [List.flatten_cons, List.flatten_nil,
                    List.append_nil, List.singleton_append]
                  rw [List.chain'_cons']
                  refine ⟨?_, chain_of_space_free (pyCasefold c) hKsf⟩
                  intro y hy hxy
                  exact hKsf y (List.mem_of_mem_head? hy) hxy.2
                · intro x hx y hy hxy
                  have hx2 : st.out.flatten.getLast? = some x := hx
                  rw [hflast] at hx2
                  have hxk0 : x ∈ k0 := List.mem_of_mem_getLast? hx2
                  exact hk0sf x hxk0 hxy.1
              constructor
              · rw [List.append_assoc, List.flatten_append]
                cases hfl : st.out.flatten with
                | nil => exact absurd hfl hflne
                | cons a t =>
                    rw [List.cons_append, List.head?_cons]
                    rw [hfl, List.head?_cons] at h2
                    exact h2
              · intro k hk
                rw [List.getLast?_concat] at hk
                obtain rfl := Option.some.inj hk
                exact ⟨hKne, hKsf⟩

/-- The whole normalizer loop preserves the output-shape invariant. -/
theorem normLoop_inv (l : List Char) : ∀ (i : Nat) (st : NormState),
    List.Chain' (fun a b => ¬(a = ' ' ∧ b = ' ')) st.out.flatten →
    st.out.flatten.head? ≠ some ' ' →
    (∀ k, st.out.getLast? = some k → k ≠ [] ∧ ∀ d ∈ k, d ≠ ' ') →
    List.Chain' (fun a b => ¬(a = ' ' ∧ b = ' ')) (normLoop l i st).out.flatten
      ∧ (normLoop l i st).out.flatten.head? ≠ some ' '
      ∧ ∀ k, (normLoop l i st).out.getLast? = some k →
          k ≠ [] ∧ ∀ d ∈ k, d ≠ ' ' := by
  induction l with
  | nil => intro i st h1 h2 h3; exact ⟨h1, h2, h3⟩
  | cons c rest ih =>
      intro i st h1 h2 h3
      obtain ⟨g1, g2, g3⟩ := normStep_inv st i c h1 h2 h3
      exact ih (i + 1) (normStep st i c) g1 g2 g3

/-- A list with an appended element is nonempty. -/
theorem isEmpty_concat_false {α : Type} (l : List α) (a : α) :
    (l ++ [a]).isEmpty = false := by
  cases l <;> rfl

/-- `normStep` on a space only records the pending position. -/
theorem normStep_space (st : NormState) (i : Nat) :
    normStep st i ' '
      = { st with pending := some (st.pending.getD i), lastWasSpace := true } := by
  unfold normStep
  rw [if_pos (by decide)]

/-- `normStep` on an alphanumeric character with no space insertion due:
append the casefold chunk. -/
theorem normStep_alnum_noinsert (st : NormState) (i : Nat) (c : Char)
    (halnum : pyIsAlnum c = true)
    (hcond : (st.lastWasSpace && !st.out.isEmpty) = false) :
    normStep st i c
      = { st with
          out := st.out ++ [pyCasefold c]
          mapping := st.mapping ++ [i]
          lastWasSpace := false
          pending := none } := by
  unfold normStep
  rw [if_neg (by rw [alnum_not_space c halnum]; simp), if_pos halnum]
  dsimp only
  rw [if_neg (by rw [hcond]; simp)]

/-- `normStep` on an alphanumeric character right after spaces (with
nonempty output): insert the single space, then the casefold chunk. -/
theorem normStep_alnum_insert (st : NormState) (i : Nat) (c : Char)
    (halnum : pyIsAlnum c = true)
    (hcond : (st.lastWasSpace && !st.out.isEmpty) = true) :
    normStep st i c
      = ⟨(st.out ++ [[' ']]) ++ [pyCasefold c],
         (st.mapping ++ [st.pending.getD i]) ++ [i], false, none⟩ := by
  unfold normStep
  rw [if_neg (by rw [alnum_not_space c halnum]; simp), if_pos halnum]
  dsimp only
  rw [if_pos hcond]

/-- The normalized string never has two adjacent spaces, never starts
with a space and never ends with one (for any input). -/
theorem normalizeOnly_shape (x : String) :
    List.Chain' (fun a b => ¬(a = ' ' ∧ b = ' ')) (normalizeOnly x).data
      ∧ (normalizeOnly x).data.head? ≠ some ' '
      ∧ (normalizeOnly x).data.getLast? ≠ some ' ' := by
  obtain ⟨g1, g2, g3⟩ := normLoop_inv x.data 0 ⟨[], [], false, none⟩
    List.chain'_nil (by simp) (by intro k hk; cases hk)
  have htrim : ¬ ((normLoop x.data 0 ⟨[], [], false, none⟩).out.getLast?
      = some [' ']) := by
    intro h
    obtain ⟨hne, hsf⟩ := g3 [' '] h
    exact hsf ' ' (by simp) rfl
  have hN : normalizeOnly x
      = ⟨(normLoop x.data 0 ⟨[], [], false, none⟩).out.flatten⟩ := by
    unfold normalizeOnly normalizeAndMap
    dsimp only
    rw [if_neg htrim]
  rw [hN]
  refine ⟨g1, g2, ?_⟩
  show (normLoop x.data 0 ⟨[], [], false, none⟩).out.flatten.getLast? ≠ some ' '
  cases hlast : (normLoop x.data 0 ⟨[], [], false, none⟩).out.getLast? with
  | none =>
      have hout : (normLoop x.data 0 ⟨[], [], false, none⟩).out = [] :=
        List.getLast?_eq_none_iff.mp hlast
      rw [hout]
      simp
  | some k =>
      obtain ⟨hkne, hksf⟩ := g3 k hlast
      have hfl := flatten_getLast _ k hlast hkne
      intro hcontra
      rw [hfl] at hcontra
      exact hksf ' ' (List.mem_of_mem_getLast? hcontra) rfl

/-- Running the normalizer loop over an already-canonical list (stable
characters, no adjacent spaces, not ending in a space), from a state
with nonempty output, no pending space and last-was-space unset,
reproduces the list chunk by chunk. -/
theorem normLoop_canonical (n : Nat) : ∀ (l : List Char) (i : Nat) (st : NormState),
    l.length ≤ n →
    (∀ c ∈ l, normStableChar c = true) →
    List.Chain' (fun a b => ¬(a = ' ' ∧ b = ' ')) l →
    l.getLast? ≠ some ' ' →
    st.lastWasSpace = false → st.pending = none → st.out.isEmpty = false →
    (normLoop l i st).out = st.out ++ l.map (fun c => [c]) := by
  induction n with
  | zero =>
      intro l i st hlen _ _ _ _ _ _
      have hnil : l = [] := List.length_eq_zero.mp (Nat.le_zero.mp hlen)
      subst hnil
      simp [normLoop]
  | succ n ih =>
      intro l i st hlen hstable hchain hlast hlw hpend hone
      cases l with
      | nil => simp [normLoop]
      | cons c rest =>
          by_cases hc : c = ' '
          · subst hc
            cases rest with
            | nil =>
                exfalso
                exact hlast rfl
            | cons c2 rest2 =>
                have hc2 : c2 ≠ ' ' := by
                  intro hcontra
                  exact (List.chain'_cons.mp hchain).1 ⟨rfl, hcontra⟩
                have han2 : pyIsAlnum c2 = true ∧ pyCasefold c2 = [c2] := by
                  have hst2 : normStableChar c2 = true := hstable c2 (by simp)
                  unfold normStableChar at hst2
                  simp only [Bool.or_eq_true, Bool.and_eq_true,
                    decide_eq_true_eq] at hst2
                  rcases hst2 with h | h
                  · exact absurd h hc2
                  · exact h
                have hs1 := normStep_space st i
                have hrec := normStep_alnum_insert
                  { st with pending := some (st.pending.getD i), lastWasSpace := true }
                  (i + 1) c2 han2.1 (by simp [hone])
                have hB1 : (normStep (normStep st i ' ') (i + 1) c2).lastWasSpace
                    = false := by rw [hs1, hrec]
                have hB2 : (normStep (normStep st i ' ') (i + 1) c2).pending
                    = none := by rw [hs1, hrec]
                have hB3 : (normStep (normStep st i ' ') (i + 1) c2).out
                    = (st.out ++ [[' ']]) ++ [[c2]] := by
                  rw [hs1, hrec]
                  show (st.out ++ [[' ']]) ++ [pyCasefold c2]
                    = (st.out ++ [[' ']]) ++ [[c2]]
                  rw [han2.2]
                have hB4 : (normStep (normStep st i ' ') (i + 1) c2).out.isEmpty
                    = false := by
                  rw [hB3]
                  exact isEmpty_concat_false _ _
                have hlen2 : rest2.length ≤ n := by
                  simp only [List.length_cons] at hlen
                  omega
                have hstable2 : ∀ x ∈ rest2, normStableChar x = true :=
                  fun x hx => hstable x (by simp [hx])
                have hlast2 : rest2.getLast? ≠ some ' ' := by
                  cases rest2 with
                  | nil => simp
                  | cons d t =>
                      rw [List.getLast?_cons_cons, List.getLast?_cons_cons] at hlast
                      exact hlast
                show (normLoop rest2 (i + 2)
                    (normStep (normStep st i ' ') (i + 1) c2)).out
                  = st.out ++ (' ' :: c2 :: rest2).map (fun x => [x])
                rw [ih rest2 (i + 2) _ hlen2 hstable2 hchain.tail.tail hlast2
                  hB1 hB2 hB4, hB3]
                simp
          · have hanc : pyIsAlnum c = true ∧ pyCasefold c = [c] := by
              have hstc : normStableChar c = true := hstable c (by simp)
              unfold normStableChar at hstc
              simp only [Bool.or_eq_true, Bool.and_eq_true,
                decide_eq_true_eq] at hstc
              rcases hstc with h | h
              · exact absurd h hc
              · exact h
            have hrec := normStep_alnum_noinsert st i c hanc.1 (by rw [hlw]; rfl)
            have hB1 : (normStep st i c).lastWasSpace = false := by rw [hrec]
            have hB2 : (normStep st i c).pending = none := by rw [hrec]
            have hB3 : (normStep st i c).out = st.out ++ [[c]] := by
              rw [hrec]
              show st.out ++ [pyCasefold c] = st.out ++ [[c]]
              rw [hanc.2]
            have hB4 : (normStep st i c).out.isEmpty = false := by
              rw [hB3]
              exact isEmpty_concat_false _ _
            have hlen2 : rest.length ≤ n := by
              simp only [List.length_cons] at hlen
              omega
            have hlast2 : rest.getLast? ≠ some ' ' := by
              cases rest with
              | nil => simp
              | cons d t =>
                  rw [List.getLast?_cons_cons] at hlast
                  exact hlast
            show (normLoop rest (i + 1) (normStep st i c)).out
              = st.out ++ (c :: rest).map (fun x => [x])
            rw [ih rest (i + 1) _ hlen2
              (fun x hx => hstable x (by simp [hx])) hchain.tail hlast2
              hB1 hB2 hB4, hB3]
            simp

/-- Normalizing a canonical string (stable characters, no adjacent
spaces, not starting or ending with a space) reproduces it. -/
theorem normalizeOnly_canonical (y : String)
    (hstable : ∀ c ∈ y.data, normStableChar c = true)
    (hchain : List.Chain' (fun a b => ¬(a = ' ' ∧ b = ' ')) y.data)
    (hhead : y.data.head? ≠ some ' ')
    (hlast : y.data.getLast? ≠ some ' ') :
    normalizeOnly y = y := by
  obtain ⟨ydata⟩ := y
  cases ydata with
  | nil => rfl
  | cons c rest =>
      have hc : c ≠ ' ' := by
        intro hcontra
        apply hhead
        show (c :: rest).head? = some ' '
        rw [List.head?_cons, hcontra]
      have hanc : pyIsAlnum c = true ∧ pyCasefold c = [c] := by
        have hstc : normStableChar c = true := hstable c (by simp)
        unfold normStableChar at hstc
        simp only [Bool.or_eq_true, Bool.and_eq_true, decide_eq_true_eq] at hstc
        rcases hstc with h | h
        · exact absurd h hc
        · exact h
      have hrec := normStep_alnum_noinsert ⟨[], [], false, none⟩ 0 c hanc.1 rfl
      have hB1 : (normStep ⟨[], [], false, none⟩ 0 c).lastWasSpace = false := by
        rw [hrec]
      have hB2 : (normStep ⟨[], [], false, none⟩ 0 c).pending = none := by
        rw [hrec]
      have hB3 : (normStep ⟨[], [], false, none⟩ 0 c).out = [[c]] := by
        rw [hrec]
        show ([] : List (List Char)) ++ [pyCasefold c] = [[c]]
        rw [hanc.2]
        rfl
      have hB4 : (normStep ⟨[], [], false, none⟩ 0 c).out.isEmpty = false := by
        rw [hB3]
        rfl
      have hlast2 : rest.getLast? ≠ some ' ' := by
        cases hr : rest with
        | nil => simp
        | cons d t =>
            intro hcontra
            apply hlast
            show (c :: rest).getLast? = some ' '
            rw [hr, List.getLast?_cons_cons]
            exact hcontra
      have hout := normLoop_canonical rest.length rest 1
        (normStep ⟨[], [], false, none⟩ 0 c) le_rfl
        (fun x hx => hstable x (by simp [hx]))
        (List.Chain'.tail hchain) hlast2 hB1 hB2 hB4
      rw [hB3] at hout
      have htrim : ¬ ((normLoop rest 1
          (normStep ⟨[], [], false, none⟩ 0 c)).out.getLast? = some [' ']) := by
        rw [hout]
        cases hr : rest with
        | nil =>
            intro hcontra
            simp only [List.map_nil, List.append_nil] at hcontra
            have h1 : [c] = [' '] := Option.some.inj (by
              rw [← hcontra]
              rfl)
            exact hc (List.cons.inj h1).1
        | cons d t =>
            rw [List.getLast?_append_of_ne_nil _ (by simp)]
            rw [List.getLast?_map]
            intro hcontra
            obtain ⟨a, ha1, ha2⟩ := Option.map_eq_some'.mp hcontra
            have ha : a = ' ' := (List.cons.inj ha2).1
            subst ha
            apply hlast
            show (c :: rest).getLast? = some ' '
            rw [hr, List.getLast?_cons_cons]
            exact ha1
      show (normalizeAndMap ⟨c :: rest⟩).1 = ⟨c :: rest⟩
      unfold normalizeAndMap
      dsimp only
      have hloop : normLoop (c :: rest) 0 ⟨[], [], false, none⟩
          = normLoop rest 1 (normStep ⟨[], [], false, none⟩ 0 c) := rfl
      rw [hloop, if_neg htrim, hout]
      show (⟨([[c]] ++ rest.map (fun x => [x])).flatten⟩ : String) = ⟨c :: rest⟩
      rw [List.flatten_append, flatten_map_singleton]
      rfl

/-- **C4** (amended): the normalizer is idempotent on every input whose
normalization consists of stable characters — spaces and alphanumerics
that casefold to themselves.  (Unconditional idempotence fails: see the
counterexample, where casefolding produces a combining mark that a
second pass deletes.) -/
theorem C4_normalize_idempotent_on_stable (x : String)
    (h : ∀ c ∈ (normalizeOnly x).data, normStableChar c = true) :
    normalizeOnly (normalizeOnly x) = normalizeOnly x := by
  obtain ⟨h1, h2, h3⟩ := normalizeOnly_shape x
  exact normalizeOnly_canonical (normalizeOnly x) h h1 h2 h3

/-- **C4** (witness): `"Hello, World"` normalizes to `"hello world"`,
all of whose characters are stable, so a second normalization is the
identity on it. -/
theorem C4_witness :
    (∀ c ∈ (normalizeOnly "Hello, World").data, normStableChar c = true)
      ∧ normalizeOnly (normalizeOnly "Hello, World")
          = normalizeOnly "Hello, World" :=
  ⟨by decide, C4_normalize_idempotent_on_stable "Hello, World" (by decide)⟩

/-- **C4** (counterexample): `"İ"` normalizes to `i` followed by the
combining dot above (U+0307); renormalizing deletes the combining mark
(it is not alphanumeric), so `normalize_only` is not idempotent. -/
theorem C4_idempotence_counterexample :
    normalizeOnly (normalizeOnly "İ") ≠ normalizeOnly "İ" := by
  decide

/-- Unpacking four packed little-endian bytes recovers a 32-bit value. -/
theorem takeU32_packU32 (v : Nat) (rest : List Nat) (h : v < 4294967296) :
    takeU32 (packU32 v ++ rest) = .ok (v, rest) := by
  show Except.ok (leNat [v % 256, v / 256 % 256, v / 65536 % 256,
    v / 16777216 % 256], rest) = Except.ok (v, rest)
  have : leNat [v % 256, v / 256 % 256, v / 65536 % 256, v / 16777216 % 256]
      = v := by
    unfold leNat
    simp only [List.foldr_cons, List.foldr_nil]
    omega
  rw [this]

/-- A character's position is a valid scalar value: below the surrogate
block or above it and below `0x110000`. -/
theorem char_toNat_valid (c : Char) :
    c.toNat < 55296 ∨ (57343 < c.toNat ∧ c.toNat < 1114112) := by
  have h := c.valid
  unfold UInt32.isValidChar Nat.isValidChar at h
  rcases h with h | h
  · left; exact h
  · right; exact h

/-- Strict UTF-8 decoding inverts single-character encoding, leaving the
remaining bytes untouched. -/
theorem utf8DecodeChar_encode (c : Char) (tail : List Nat) :
    utf8DecodeChar (utf8EncodeChar c ++ tail) = some (c, tail) := by
  have hval := char_toNat_valid c
  have hofn := Char.ofNat_toNat c
  unfold utf8EncodeChar
  dsimp only
  by_cases h1 : c.toNat < 128
  · rw [if_pos h1]
    show utf8DecodeChar (c.toNat :: tail) = some (c, tail)
    unfold utf8DecodeChar
    dsimp only
    rw [if_pos h1, hofn]
  · rw [if_neg h1]
    by_cases h2 : c.toNat < 2048
    · rw [if_pos h2]
      show utf8DecodeChar ((192 + c.toNat / 64) :: (128 + c.toNat % 64) :: tail)
        = some (c, tail)
      unfold utf8DecodeChar
      dsimp only
      rw [if_neg (by omega)]
      rw [if_pos (by simp only [Bool.and_eq_true, decide_eq_true_eq]; omega)]
      rw [if_pos (by simp only [Bool.and_eq_true, decide_eq_true_eq]; omega)]
      have hv : (192 + c.toNat / 64 - 192) * 64 + (128 + c.toNat % 64 - 128)
          = c.toNat := by omega
      rw [hv, hofn]
    · rw [if_neg h2]
      by_cases h3 : c.toNat < 65536
      · rw [if_pos h3]
        show utf8DecodeChar ((224 + c.toNat / 4096) :: (128 + c.toNat / 64 % 64)
            :: (128 + c.toNat % 64) :: tail) = some (c, tail)
        unfold utf8DecodeChar
        dsimp only
        rw [if_neg (by omega)]
        rw [if_neg (by simp only [Bool.and_eq_true, decide_eq_true_eq]; omega)]
        rw [if_pos (by simp only [Bool.and_eq_true, decide_eq_true_eq]; omega)]
        rw [if_pos (by
          simp only [Bool.and_eq_true, Bool.or_eq_true, decide_eq_true_eq]
          omega)]
        have hv : (224 + c.toNat / 4096 - 224) * 4096
            + (128 + c.toNat / 64 % 64 - 128) * 64 + (128 + c.toNat % 64 - 128)
            = c.toNat := by omega
        rw [hv, hofn]
      · rw [if_neg h3]
        show utf8DecodeChar ((240 + c.toNat / 262144) :: (128 + c.toNat / 4096 % 64)
            :: (128 + c.toNat / 64 % 64) :: (128 + c.toNat % 64) :: tail)
          = some (c, tail)
        unfold utf8DecodeChar
        dsimp only
        rw [if_neg (by omega)]
        rw [if_neg (by simp only [Bool.and_eq_true, decide_eq_true_eq]; omega)]
        rw [if_neg (by simp only [Bool.and_eq_true, decide_eq_true_eq]; omega)]
        rw [if_pos (by simp only [Bool.and_eq_true, decide_eq_true_eq]; omega)]
        rw [if_pos (by
          simp only [Bool.and_eq_true, decide_eq_true_eq]
          omega)]
        have hv : (240 + c.toNat / 262144 - 240) * 262144
            + (128 + c.toNat / 4096 % 64 - 128) * 4096
            + (128 + c.toNat / 64 % 64 - 128) * 64 + (128 + c.toNat % 64 - 128)
            = c.toNat := by omega
        rw [hv, hofn]

/-- A single character encodes to at least one byte. -/
theorem utf8EncodeChar_ne_nil (c : Char) : utf8EncodeChar c ≠ [] := by
  unfold utf8EncodeChar
  dsimp only
  split_ifs <;> simp

/-- The UTF-8 decoding loop inverts encoding whenever the fuel covers
the byte count. -/
theorem utf8DecodeAux_encode (cs : List Char) : ∀ fuel,
    (cs.flatMap utf8EncodeChar).length ≤ fuel →
    utf8DecodeAux fuel (cs.flatMap utf8EncodeChar) = some cs := by
  induction cs with
  | nil =>
      intro fuel _
      show utf8DecodeAux fuel [] = some []
      cases fuel <;> rfl
  | cons c cs ih =>
      intro fuel hlen
      rcases henc : utf8EncodeChar c with _ | ⟨b, bs⟩
      · exact absurd henc (utf8EncodeChar_ne_nil c)
      have hdec := utf8DecodeChar_encode c (cs.flatMap utf8EncodeChar)
      rw [henc] at hdec
      have hflat : (c :: cs).flatMap utf8EncodeChar
          = b :: (bs ++ cs.flatMap utf8EncodeChar) := by
        rw [List.flatMap_cons, henc]
        rfl
      rw [hflat]
      rw [hflat] at hlen
      cases fuel with
      | zero => simp at hlen
      | succ f =>
          show (match utf8DecodeChar (b :: (bs ++ cs.flatMap utf8EncodeChar)) with
            | none => none
            | some (c2, rest) =>
                (utf8DecodeAux f rest).map (fun l => c2 :: l)) = some (c :: cs)
          rw [show utf8DecodeChar (b :: (bs ++ cs.flatMap utf8EncodeChar))
            = some (c, cs.flatMap utf8EncodeChar) from hdec]
          dsimp only
          rw [ih f (by
            simp only [List.length_cons, List.length_append] at hlen
            omega)]
          rfl

/-- `decode(encode(s)) = s` for strict UTF-8. -/
theorem utf8Decode_encode (cs : List Char) :
    utf8Decode (cs.flatMap utf8EncodeChar) = some cs :=
  utf8DecodeAux_encode cs _ le_rfl

/-- Dropping `m` packed words drops `m` values. -/
theorem u32flat_drop (ps : List Nat) : ∀ m : Nat,
    ((ps.map packU32).flatten).drop (4 * m) = ((ps.drop m).map packU32).flatten := by
  induction ps with
  | nil => intro m; simp
  | cons v ps ih =>
      intro m
      cases m with
      | zero => simp
      | succ m =>
          show (packU32 v ++ (ps.map packU32).flatten).drop (4 * (m + 1))
            = ((ps.drop m).map packU32).flatten
          have h4 : 4 * (m + 1) = (packU32 v).length + 4 * m := by
            show 4 * (m + 1) = 4 + 4 * m
            omega
          rw [h4, List.drop_append (4 * m), ih m]

/-- Taking `m` packed words keeps `m` values. -/
theorem u32flat_take (ps : List Nat) : ∀ m : Nat,
    ((ps.map packU32).flatten).take (4 * m) = ((ps.take m).map packU32).flatten := by
  induction ps with
  | nil => intro m; simp
  | cons v ps ih =>
      intro m
      cases m with
      | zero => simp
      | succ m =>
          show (packU32 v ++ (ps.map packU32).flatten).take (4 * (m + 1))
            = (packU32 v ++ ((ps.take m).map packU32).flatten)
          have h4 : 4 * (m + 1) = (packU32 v).length + 4 * m := by
            show 4 * (m + 1) = 4 + 4 * m
            omega
          rw [h4, List.take_append (4 * m), ih m]

/-- Little-endian unpack of a packed 32-bit value. -/
theorem leNat_packU32 (v : Nat) (h : v < 4294967296) :
    leNat [v % 256, v / 256 % 256, v / 65536 % 256, v / 16777216 % 256] = v := by
  unfold leNat
  simp only [List.foldr_cons, List.foldr_nil]
  omega

/-- Chunking the concatenation of packed words recovers the values. -/
theorem u32Chunks_roundtrip (ps : List Nat) (h : ∀ v ∈ ps, v < 4294967296) :
    u32ChunksPy ((ps.map packU32).flatten) = ps := by
  induction ps with
  | nil => rfl
  | cons v ps ih =>
      show u32ChunksPy ((v % 256) :: (v / 256 % 256) :: (v / 65536 % 256)
        :: (v / 16777216 % 256) :: (ps.map packU32).flatten) = v :: ps
      simp only [u32ChunksPy]
      rw [leNat_packU32 v (h v (by simp)), ih (fun x hx => h x (by simp [hx]))]

/-- Serializing one in-range directory entry. -/
theorem acxEntryBytes_ok (e : List Nat × Nat × Nat)
    (h1 : e.2.1 < 4294967296) (h2 : e.2.2 < 4294967296) :
    acxEntryBytes e
      = .ok ([e.1.length] ++ e.1 ++ packU32 e.2.1 ++ packU32 e.2.2) := by
  unfold acxEntryBytes
  rw [show packU32E e.2.1 = Except.ok (packU32 e.2.1) from if_pos h1]
  show (packU32E e.2.2 >>= fun cntB =>
    Except.ok ([e.1.length] ++ e.1 ++ packU32 e.2.1 ++ cntB)) = _
  rw [show packU32E e.2.2 = Except.ok (packU32 e.2.2) from if_pos h2]
  rfl

/-- Serializing a directory of in-range entries. -/
theorem mapM_entryBytes (entries : List (List Nat × Nat × Nat))
    (h : ∀ e ∈ entries, e.2.1 < 4294967296 ∧ e.2.2 < 4294967296) :
    entries.mapM acxEntryBytes
      = .ok (entries.map (fun e =>
          [e.1.length] ++ e.1 ++ packU32 e.2.1 ++ packU32 e.2.2)) := by
  induction entries with
  | nil => rfl
  | cons e entries ih =>
      rw [List.mapM_cons]
      rw [acxEntryBytes_ok e (h e (by simp)).1 (h e (by simp)).2]
      show (entries.mapM acxEntryBytes >>= fun xs =>
        pure (([e.1.length] ++ e.1 ++ packU32 e.2.1 ++ packU32 e.2.2) :: xs)) = _
      rw [ih (fun x hx => h x (by simp [hx]))]
      rfl

/-- Packing a list of in-range postings values. -/
theorem mapM_packU32E (ps : List Nat) (h : ∀ v ∈ ps, v < 4294967296) :
    ps.mapM packU32E = .ok (ps.map packU32) := by
  induction ps with
  | nil => rfl
  | cons v ps ih =>
      rw [List.mapM_cons]
      rw [show packU32E v = Except.ok (packU32 v) from if_pos (h v (by simp))]
      show (ps.mapM packU32E >>= fun xs => pure (packU32 v :: xs)) = _
      rw [ih (fun x hx => h x (by simp [hx]))]
      rfl

/-- One directory entry per item. -/
theorem acxEntriesOf_length : ∀ (items : List (String × List Nat)) (off : Nat),
    (acxEntriesOf items off).length = items.length := by
  intro items
  induction items with
  | nil => intro off; rfl
  | cons p rest ih =>
      intro off
      show (acxEntriesOf rest (off + p.2.length)).length + 1 = rest.length + 1
      rw [ih]

/-- Every directory entry's offset and count stay within the running
offset plus the total posting count. -/
theorem acxEntriesOf_bounds : ∀ (items : List (String × List Nat)) (off : Nat),
    ∀ e ∈ acxEntriesOf items off,
      off ≤ e.2.1
        ∧ e.2.1 + e.2.2 ≤ off + ((items.map (fun p => p.2.length)).sum) := by
  intro items
  induction items with
  | nil =>
      intro off e he
      cases he
  | cons p rest ih =>
      intro off e he
      rcases List.mem_cons.mp he with rfl | he2
      · refine ⟨le_rfl, ?_⟩
        simp only [List.map_cons, List.sum_cons]
        omega
      · obtain ⟨ha, hb⟩ := ih (off + p.2.length) e he2
        refine ⟨by omega, ?_⟩
        simp only [List.map_cons, List.sum_cons]
        omega

/-- `acxCollect` on items with short-enough keys: the directory entries
with running offsets, and the concatenated postings. -/
theorem acxCollect_ok : ∀ (items : List (String × List Nat)) (off : Nat),
    (∀ p ∈ items, (utf8Encode p.1).length ≤ 255) →
    acxCollect items off
      = .ok (acxEntriesOf items off, (items.map (fun p => p.2)).flatten) := by
  intro items
  induction items with
  | nil =>
      intro off _
      rfl
  | cons p rest ih =>
      intro off h
      unfold acxCollect
      dsimp only
      rw [if_neg (by
        have := h p (by simp)
        omega)]
      show (acxCollect rest (off + p.2.length) >>= fun x =>
        Except.ok ((utf8Encode p.1, off, p.2.length) :: x.1, p.2 ++ x.2)) = _
      rw [ih (off + p.2.length) (fun q hq => h q (by simp [hq]))]
      rfl

/-- The bytes `ACXWriter.save` produces for in-range input. -/
theorem acxSave_ok (k : Nat) (items : List (String × List Nat))
    (hklen : ∀ p ∈ items, (utf8Encode p.1).length ≤ 255)
    (hk32 : k < 4294967296)
    (hn32 : items.length < 4294967296)
    (hbounds : ∀ e ∈ acxEntriesOf items 0,
      e.2.1 < 4294967296 ∧ e.2.2 < 4294967296)
    (hid32 : ∀ v ∈ (items.map (fun p => p.2)).flatten, v < 4294967296) :
    acxSave k items
      = .ok ([65, 67, 88, 49] ++ packU32 k ++ packU32 items.length
          ++ ((acxEntriesOf items 0).map (fun e =>
                [e.1.length] ++ e.1 ++ packU32 e.2.1 ++ packU32 e.2.2)).flatten
          ++ (((items.map (fun p => p.2)).flatten).map packU32).flatten) := by
  unfold acxSave
  rw [acxCollect_ok items 0 hklen]
  show (packU32E k >>= fun kB =>
      packU32E (acxEntriesOf items 0).length >>= fun nB =>
      (acxEntriesOf items 0).mapM acxEntryBytes >>= fun dir =>
      ((items.map (fun p => p.2)).flatten).mapM packU32E >>= fun postB =>
      Except.ok ([65, 67, 88, 49] ++ kB ++ nB ++ dir.flatten ++ postB.flatten))
    = _
  rw [show packU32E k = Except.ok (packU32 k) from if_pos hk32]
  show (packU32E (acxEntriesOf items 0).length >>= fun nB =>
      (acxEntriesOf items 0).mapM acxEntryBytes >>= fun dir =>
      ((items.map (fun p => p.2)).flatten).mapM packU32E >>= fun postB =>
      Except.ok ([65, 67, 88, 49] ++ packU32 k ++ nB ++ dir.flatten
        ++ postB.flatten))
    = _
  rw [acxEntriesOf_length items 0]
  rw [show packU32E items.length = Except.ok (packU32 items.length)
    from if_pos hn32]
  show ((acxEntriesOf items 0).mapM acxEntryBytes >>= fun dir =>
      ((items.map (fun p => p.2)).flatten).mapM packU32E >>= fun postB =>
      Except.ok ([65, 67, 88, 49] ++ packU32 k ++ packU32 items.length
        ++ dir.flatten ++ postB.flatten))
    = _
  rw [mapM_entryBytes (acxEntriesOf items 0) hbounds]
  show (((items.map (fun p => p.2)).flatten).mapM packU32E >>= fun postB =>
      Except.ok ([65, 67, 88, 49] ++ packU32 k ++ packU32 items.length
        ++ ((acxEntriesOf items 0).map (fun e =>
              [e.1.length] ++ e.1 ++ packU32 e.2.1 ++ packU32 e.2.2)).flatten
        ++ postB.flatten))
    = _
  rw [mapM_packU32E ((items.map (fun p => p.2)).flatten) hid32]
  rfl

/-- The parser inverts the serialized directory, entry by entry. -/
theorem parseDir_items : ∀ (items : List (String × List Nat)) (off : Nat)
    (tail : List Nat),
    off + ((items.map (fun p => p.2.length)).sum) < 4294967296 →
    parseDir items.length
      (((acxEntriesOf items off).map (fun e =>
          [e.1.length] ++ e.1 ++ packU32 e.2.1 ++ packU32 e.2.2)).flatten ++ tail)
      = .ok (acxDirOf items off, tail) := by
  intro items
  induction items with
  | nil =>
      intro off tail _
      rfl
  | cons p rest ih =>
      intro off tail hb
      have hassoc : (((acxEntriesOf (p :: rest) off).map (fun e =>
          [e.1.length] ++ e.1 ++ packU32 e.2.1 ++ packU32 e.2.2)).flatten ++ tail)
          = (utf8Encode p.1).length :: (utf8Encode p.1
              ++ (packU32 off
                  ++ (packU32 p.2.length
                      ++ (((acxEntriesOf rest (off + p.2.length)).map (fun e =>
                            [e.1.length] ++ e.1 ++ packU32 e.2.1
                              ++ packU32 e.2.2)).flatten ++ tail)))) := by
        show (((utf8Encode p.1).length :: (utf8Encode p.1 ++ packU32 off
            ++ packU32 p.2.length))
            ++ ((acxEntriesOf rest (off + p.2.length)).map (fun e =>
              [e.1.length] ++ e.1 ++ packU32 e.2.1 ++ packU32 e.2.2)).flatten)
            ++ tail = _
        simp [List.append_assoc]
      rw [hassoc]
      show (match utf8Decode ((utf8Encode p.1
          ++ (packU32 off ++ (packU32 p.2.length ++ (((acxEntriesOf rest
              (off + p.2.length)).map (fun e => [e.1.length] ++ e.1
                ++ packU32 e.2.1 ++ packU32 e.2.2)).flatten
              ++ tail)))).take (utf8Encode p.1).length) with
        | none => Except.error "utf-8"
        | some cs => do
            let (o, bs3) ← takeU32 ((utf8Encode p.1
              ++ (packU32 off ++ (packU32 p.2.length ++ (((acxEntriesOf rest
                  (off + p.2.length)).map (fun e => [e.1.length] ++ e.1
                    ++ packU32 e.2.1 ++ packU32 e.2.2)).flatten
                  ++ tail)))).drop (utf8Encode p.1).length)
            let (cnt, bs4) ← takeU32 bs3
            let (r, t) ← parseDir rest.length bs4
            Except.ok ((⟨cs⟩, o, cnt) :: r, t))
      = Except.ok (acxDirOf (p :: rest) off, tail)
      rw [List.take_left, List.drop_left]
      rw [show utf8Decode (utf8Encode p.1) = some p.1.data
        from utf8Decode_encode p.1.data]
      rw [takeU32_packU32 off _ (by omega)]
      show (takeU32 (packU32 p.2.length ++ (((acxEntriesOf rest
          (off + p.2.length)).map (fun e => [e.1.length] ++ e.1
            ++ packU32 e.2.1 ++ packU32 e.2.2)).flatten ++ tail))
        >>= fun x2 => parseDir rest.length x2.2
        >>= fun x3 => Except.ok ((⟨p.1.data⟩, off, x2.1) :: x3.1, x3.2))
      = Except.ok (acxDirOf (p :: rest) off, tail)
      rw [takeU32_packU32 p.2.length _ (by
        simp only [List.map_cons, List.sum_cons] at hb
        omega)]
      show (parseDir rest.length (((acxEntriesOf rest
          (off + p.2.length)).map (fun e => [e.1.length] ++ e.1
            ++ packU32 e.2.1 ++ packU32 e.2.2)).flatten ++ tail)
        >>= fun x3 => Except.ok ((⟨p.1.data⟩, off, p.2.length) :: x3.1, x3.2))
      = Except.ok (acxDirOf (p :: rest) off, tail)
      rw [ih (off + p.2.length) tail (by
        simp only [List.map_cons, List.sum_cons] at hb
        omega)]
      rfl

/-- The directory keys are the item keys, in order. -/
theorem acxDirOf_map_fst : ∀ (items : List (String × List Nat)) (off : Nat),
    (acxDirOf items off).map (fun e => e.1) = items.map (fun p => p.1) := by
  intro items
  induction items with
  | nil => intro off; rfl
  | cons p rest ih =>
      intro off
      show p.1 :: (acxDirOf rest (off + p.2.length)).map (fun e => e.1) = _
      rw [ih]
      rfl

/-- Indexing a mapped list through `getD` under the length. -/
theorem map_getD {α β : Type} (l : List α) (f : α → β) (d : α) (j : Nat)
    (hj : j < l.length) : (l.map f).getD j (f d) = f (l.getD j d) := by
  rw [List.getD_eq_getElem (l.map f) (f d) (by simp [hj]),
    List.getD_eq_getElem l d hj, List.getElem_map]

/-- The `j`-th directory offset is the running offset plus the posting
counts of the previous items; the `j`-th count is that item's posting
count. -/
theorem acxDirOf_getD : ∀ (items : List (String × List Nat)) (j : Nat)
    (off : Nat), j < items.length →
    ((acxDirOf items off).map (fun e => e.2.1)).getD j 0
        = off + (((items.take j).map (fun p => p.2.length)).sum)
      ∧ ((acxDirOf items off).map (fun e => e.2.2)).getD j 0
        = (items.getD j ("", [])).2.length := by
  intro items
  induction items with
  | nil =>
      intro j off hj
      simp at hj
  | cons p rest ih =>
      intro j off hj
      cases j with
      | zero => exact ⟨rfl, rfl⟩
      | succ j =>
          obtain ⟨h1, h2⟩ := ih j (off + p.2.length)
            (by simp only [List.length_cons] at hj; omega)
          constructor
          · show ((acxDirOf rest (off + p.2.length)).map
                (fun e => e.2.1)).getD j 0 = _
            rw [h1]
            simp only [List.take_succ_cons, List.map_cons, List.sum_cons]
            omega
          · exact h2

/-- Parsing the bytes `ACXWriter.save` wrote recovers `k`, the directory
and the postings region. -/
theorem acxParse_save (k : Nat) (items : List (String × List Nat))
    (hklen : ∀ p ∈ items, (utf8Encode p.1).length ≤ 255)
    (hk32 : k < 4294967296)
    (hn32 : items.length < 4294967296)
    (htot : ((items.map (fun p => p.2.length)).sum) < 4294967296)
    (hid32 : ∀ v ∈ (items.map (fun p => p.2)).flatten, v < 4294967296) :
    ∃ bs, acxSave k items = .ok bs
      ∧ acxParse bs = .ok ⟨k, (acxDirOf items 0).map (fun e => e.1),
          (acxDirOf items 0).map (fun e => e.2.1),
          (acxDirOf items 0).map (fun e => e.2.2),
          (((items.map (fun p => p.2)).flatten).map packU32).flatten⟩ := by
  have hbounds : ∀ e ∈ acxEntriesOf items 0,
      e.2.1 < 4294967296 ∧ e.2.2 < 4294967296 := by
    intro e he
    obtain ⟨h1, h2⟩ := acxEntriesOf_bounds items 0 e he
    omega
  refine ⟨_, acxSave_ok k items hklen hk32 hn32 hbounds hid32, ?_⟩
  have hform : [65, 67, 88, 49] ++ packU32 k ++ packU32 items.length
      ++ ((acxEntriesOf items 0).map (fun e =>
            [e.1.length] ++ e.1 ++ packU32 e.2.1 ++ packU32 e.2.2)).flatten
      ++ (((items.map (fun p => p.2)).flatten).map packU32).flatten
      = 65 :: 67 :: 88 :: 49 :: (packU32 k ++ (packU32 items.length
          ++ (((acxEntriesOf items 0).map (fun e =>
                [e.1.length] ++ e.1 ++ packU32 e.2.1 ++ packU32 e.2.2)).flatten
              ++ (((items.map (fun p => p.2)).flatten).map packU32).flatten))) := by
    simp [List.append_assoc]
  rw [hform]
  unfold acxParse
  have hmagic : (65 :: 67 :: 88 :: 49 :: (packU32 k ++ (packU32 items.length
      ++ (((acxEntriesOf items 0).map (fun e =>
            [e.1.length] ++ e.1 ++ packU32 e.2.1 ++ packU32 e.2.2)).flatten
          ++ (((items.map (fun p => p.2)).flatten).map packU32).flatten)))).take 4
      = [65, 67, 88, 49] := rfl
  rw [if_pos hmagic]
  show (takeU32 (packU32 k ++ (packU32 items.length
      ++ (((acxEntriesOf items 0).map (fun e =>
            [e.1.length] ++ e.1 ++ packU32 e.2.1 ++ packU32 e.2.2)).flatten
          ++ (((items.map (fun p => p.2)).flatten).map packU32).flatten)))
    >>= fun x1 => takeU32 x1.2
    >>= fun x2 => parseDir x2.1 x2.2
    >>= fun x3 => Except.ok (⟨x1.1, x3.1.map (fun e => e.1),
        x3.1.map (fun e => e.2.1), x3.1.map (fun e => e.2.2), x3.2⟩ : ACXState))
    = _
  rw [takeU32_packU32 k _ hk32]
  show (takeU32 (packU32 items.length
      ++ (((acxEntriesOf items 0).map (fun e =>
            [e.1.length] ++ e.1 ++ packU32 e.2.1 ++ packU32 e.2.2)).flatten
          ++ (((items.map (fun p => p.2)).flatten).map packU32).flatten))
    >>= fun x2 => parseDir x2.1 x2.2
    >>= fun x3 => Except.ok (⟨k, x3.1.map (fun e => e.1),
        x3.1.map (fun e => e.2.1), x3.1.map (fun e => e.2.2), x3.2⟩ : ACXState))
    = _
  rw [takeU32_packU32 items.length _ hn32]
  show (parseDir items.length
      (((acxEntriesOf items 0).map (fun e =>
            [e.1.length] ++ e.1 ++ packU32 e.2.1 ++ packU32 e.2.2)).flatten
          ++ (((items.map (fun p => p.2)).flatten).map packU32).flatten)
    >>= fun x3 => Except.ok (⟨k, x3.1.map (fun e => e.1),
        x3.1.map (fun e => e.2.1), x3.1.map (fun e => e.2.2), x3.2⟩ : ACXState))
    = _
  rw [parseDir_items items 0 _ (by omega)]
  rfl

/-- In a strictly ascending list, earlier entries are smaller. -/
theorem sorted_getD_lt (a : List String)
    (hsorted : List.Pairwise (fun u v => u.data < v.data) a)
    (i j : Nat) (hij : i < j) (hj : j < a.length) :
    (a.getD i "").data < (a.getD j "").data := by
  have hi : i < a.length := lt_trans hij hj
  rw [List.getD_eq_getElem a "" hi, List.getD_eq_getElem a "" hj]
  exact List.pairwise_iff_getElem.mp hsorted i j hi hj hij

/-- The `bisect_left` loop, on a strictly ascending list, maintains the
search invariant: everything before the result is below `x` and nothing
from the result on is. -/
theorem bisectLeftLoop_spec (a : List String) (x : String)
    (hsorted : List.Pairwise (fun u v => u.data < v.data) a) :
    ∀ (fuel lo hi : Nat), hi ≤ a.length → lo ≤ hi → hi - lo ≤ fuel →
    (∀ j, j < lo → (a.getD j "").data < x.data) →
    (∀ j, hi ≤ j → j < a.length → ¬ (a.getD j "").data < x.data) →
    (lo ≤ bisectLeftLoop a x fuel lo hi
      ∧ bisectLeftLoop a x fuel lo hi ≤ hi
      ∧ (∀ j, j < bisectLeftLoop a x fuel lo hi → (a.getD j "").data < x.data)
      ∧ (∀ j, bisectLeftLoop a x fuel lo hi ≤ j → j < a.length →
          ¬ (a.getD j "").data < x.data)) := by
  have hstep : ∀ fuel lo hi, bisectLeftLoop a x (fuel + 1) lo hi
      = if lo < hi then
          (if pyStrLt (a.getD ((lo + hi) / 2) "") x then
            bisectLeftLoop a x fuel ((lo + hi) / 2 + 1) hi
          else bisectLeftLoop a x fuel lo ((lo + hi) / 2))
        else lo := fun _ _ _ => rfl
  intro fuel
  induction fuel with
  | zero =>
      intro lo hi hhi hlohi hfuel hlo hhi2
      have hr : bisectLeftLoop a x 0 lo hi = lo := rfl
      rw [hr]
      exact ⟨le_rfl, hlohi, hlo, fun j hj hjlen => hhi2 j (by omega) hjlen⟩
  | succ fuel ih =>
      intro lo hi hhi hlohi hfuel hlo hhi2
      by_cases hlt : lo < hi
      · rw [hstep, if_pos hlt]
        have hmidlt : (lo + hi) / 2 < hi := by omega
        have hmidge : lo ≤ (lo + hi) / 2 := by omega
        cases hcmp : pyStrLt (a.getD ((lo + hi) / 2) "") x with
        | true =>
            rw [if_pos rfl]
            have hltm : (a.getD ((lo + hi) / 2) "").data < x.data := by
              unfold pyStrLt at hcmp
              exact of_decide_eq_true hcmp
            have hlo2 : ∀ j, j < (lo + hi) / 2 + 1 →
                (a.getD j "").data < x.data := by
              intro j hj
              rcases Nat.lt_or_ge j lo with h | h
              · exact hlo j h
              · rcases Nat.lt_or_ge j ((lo + hi) / 2) with h2 | h2
                · exact lt_trans
                    (sorted_getD_lt a hsorted j ((lo + hi) / 2) h2 (by omega))
                    hltm
                · have hje : j = (lo + hi) / 2 := by omega
                  rw [hje]
                  exact hltm
            obtain ⟨g1, g2, g3, g4⟩ := ih ((lo + hi) / 2 + 1) hi hhi (by omega)
              (by omega) hlo2 hhi2
            exact ⟨by omega, g2, g3, g4⟩
        | false =>
            rw [if_neg (by simp)]
            have hnltm : ¬ (a.getD ((lo + hi) / 2) "").data < x.data := by
              unfold pyStrLt at hcmp
              exact of_decide_eq_false hcmp
            have hhi3 : ∀ j, (lo + hi) / 2 ≤ j → j < a.length →
                ¬ (a.getD j "").data < x.data := by
              intro j hj hjlen
              rcases eq_or_lt_of_le hj with heq | hgt
              · rw [← heq]
                exact hnltm
              · intro hcontra
                exact hnltm (lt_trans
                  (sorted_getD_lt a hsorted ((lo + hi) / 2) j hgt hjlen) hcontra)
            obtain ⟨g1, g2, g3, g4⟩ := ih lo ((lo + hi) / 2) (by omega) (by omega)
              (by omega) hlo hhi3
            exact ⟨g1, by omega, g3, g4⟩
      · have hr : bisectLeftLoop a x (fuel + 1) lo hi = lo := by
          rw [hstep, if_neg hlt]
        rw [hr]
        exact ⟨le_rfl, hlohi, hlo, fun j hj hjlen => hhi2 j (by omega) hjlen⟩

/-- `bisect_left` on a strictly ascending list: the result is the first
position not below `x`. -/
theorem bisectLeft_spec (a : List String) (x : String)
    (hsorted : List.Pairwise (fun u v => u.data < v.data) a) :
    bisectLeft a x ≤ a.length
      ∧ (∀ j, j < bisectLeft a x → (a.getD j "").data < x.data)
      ∧ (∀ j, bisectLeft a x ≤ j → j < a.length →
          ¬ (a.getD j "").data < x.data) := by
  obtain ⟨h1, h2, h3, h4⟩ := bisectLeftLoop_spec a x hsorted a.length 0 a.length
    le_rfl (Nat.zero_le _) (by omega)
    (fun j hj => absurd hj (Nat.not_lt_zero j))
    (fun j hj hjlen => absurd hjlen (by omega))
  exact ⟨h2, h3, h4⟩

/-- On a strictly ascending list, `bisect_left` finds the position of a
present key. -/
theorem bisectLeft_eq_idx (a : List String) (x : String)
    (hsorted : List.Pairwise (fun u v => u.data < v.data) a) (idx : Nat)
    (hidx : idx < a.length) (heq : a.getD idx "" = x) :
    bisectLeft a x = idx := by
  obtain ⟨h1, h2, h3⟩ := bisectLeft_spec a x hsorted
  by_contra hne
  rcases Nat.lt_or_ge (bisectLeft a x) idx with h | h
  · have hlt := sorted_getD_lt a hsorted (bisectLeft a x) idx h hidx
    rw [heq] at hlt
    exact h3 (bisectLeft a x) le_rfl (by omega) hlt
  · have hlt2 : idx < bisectLeft a x := by omega
    have := h2 idx hlt2
    rw [heq] at this
    exact absurd this (lt_irrefl _)

/-- Dropping the flattened lengths of the first `j` chunks drops the
first `j` chunks. -/
theorem flatten_drop_sum : ∀ (ls : List (List Nat)) (j : Nat),
    ls.flatten.drop (((ls.take j).map List.length).sum) = (ls.drop j).flatten := by
  intro ls
  induction ls with
  | nil => intro j; simp
  | cons l ls ih =>
      intro j
      cases j with
      | zero => simp
      | succ j =>
          show (l ++ ls.flatten).drop ((((l :: ls.take j)).map List.length).sum)
            = (ls.drop j).flatten
          rw [show (((l :: ls.take j)).map List.length).sum
            = l.length + ((ls.take j).map List.length).sum from by
              simp [List.sum_cons]]
          rw [List.drop_append (((ls.take j).map List.length).sum)]
          exact ih j

/-- On the state parsed back from a sorted save, `get` returns exactly
the `j`-th item's postings. -/
theorem acxGet_state_mem (kk : Nat) (items : List (String × List Nat)) (j : Nat)
    (hsorted : List.Pairwise (fun u v => u.1.data < v.1.data) items)
    (hid32 : ∀ p ∈ items, ∀ v ∈ p.2, v < 4294967296)
    (hj : j < items.length) :
    acxGet ⟨kk, (acxDirOf items 0).map (fun e => e.1),
      (acxDirOf items 0).map (fun e => e.2.1),
      (acxDirOf items 0).map (fun e => e.2.2),
      (((items.map (fun p => p.2)).flatten).map packU32).flatten⟩
      (items.getD j ("", [])).1
    = (items.getD j ("", [])).2 := by
  have hkeys : (acxDirOf items 0).map (fun e => e.1)
      = items.map (fun p => p.1) := acxDirOf_map_fst items 0
  have hksorted : List.Pairwise (fun a b => a.data < b.data)
      (items.map (fun p => p.1)) := List.pairwise_map.mpr hsorted
  have hgetDkey : (items.map (fun p => p.1)).getD j ""
      = (items.getD j ("", [])).1 := map_getD items (fun p => p.1) ("", []) j hj
  have hbis : bisectLeft (items.map (fun p => p.1)) (items.getD j ("", [])).1
      = j := bisectLeft_eq_idx _ _ hksorted j (by simp [hj]) hgetDkey
  have hmemj : items.getD j ("", []) ∈ items := by
    rw [List.getD_eq_getElem items ("", []) hj]
    exact List.getElem_mem hj
  unfold acxGet
  dsimp only
  rw [hkeys, hbis]
  rw [if_neg (by
    simp only [Bool.or_eq_true, decide_eq_true_eq, not_or]
    refine ⟨?_, ?_⟩
    · simp only [List.length_map]
      omega
    · rw [hgetDkey]
      simp)]
  rw [(acxDirOf_getD items j 0 hj).1, (acxDirOf_getD items j 0 hj).2]
  by_cases hcnt : (items.getD j ("", [])).2.length = 0
  · rw [if_pos hcnt]
    exact (List.length_eq_zero.mp hcnt).symm
  · rw [if_neg hcnt]
    have hS : ((items.take j).map (fun p => p.2.length)).sum
        = ((((items.map (fun p => p.2)).take j)).map List.length).sum := by
      rw [← List.map_take]
      rw [List.map_map]
      rfl
    rw [Nat.zero_add]
    rw [show ((items.take j).map (fun p => p.2.length)).sum * 4
      = 4 * ((((items.map (fun p => p.2)).take j)).map List.length).sum from by
        rw [hS]; omega]
    rw [u32flat_drop]
    rw [flatten_drop_sum]
    rw [show (items.getD j ("", [])).2.length * 4
      = 4 * (items.getD j ("", [])).2.length from by omega]
    rw [u32flat_take]
    have hdropj : (items.map (fun p => p.2)).drop j
        = (items.getD j ("", [])).2 :: (items.map (fun p => p.2)).drop (j + 1) := by
      rw [List.drop_eq_getElem_cons (by simp [hj] : j < (items.map (fun p => p.2)).length)]
      congr 1
      rw [List.getElem_map]
      rw [← List.getD_eq_getElem items ("", []) hj]
    rw [hdropj, List.flatten_cons]
    rw [show ((items.getD j ("", [])).2
        ++ ((items.map (fun p => p.2)).drop (j + 1)).flatten).take
          (items.getD j ("", [])).2.length
      = (items.getD j ("", [])).2 from List.take_left _ _]
    exact u32Chunks_roundtrip (items.getD j ("", [])).2
      (fun v hv => hid32 (items.getD j ("", [])) hmemj v hv)

/-- On the parsed state, `get` of a key absent from the items returns
the empty posting set. -/
theorem acxGet_state_absent (kk : Nat) (items : List (String × List Nat))
    (key : String)
    (hsorted : List.Pairwise (fun u v => u.1.data < v.1.data) items)
    (habs : ∀ p ∈ items, p.1 ≠ key) :
    acxGet ⟨kk, (acxDirOf items 0).map (fun e => e.1),
      (acxDirOf items 0).map (fun e => e.2.1),
      (acxDirOf items 0).map (fun e => e.2.2),
      (((items.map (fun p => p.2)).flatten).map packU32).flatten⟩ key
    = [] := by
  have hkeys : (acxDirOf items 0).map (fun e => e.1)
      = items.map (fun p => p.1) := acxDirOf_map_fst items 0
  have hksorted : List.Pairwise (fun a b => a.data < b.data)
      (items.map (fun p => p.1)) := List.pairwise_map.mpr hsorted
  obtain ⟨hb1, _, _⟩ := bisectLeft_spec (items.map (fun p => p.1)) key hksorted
  unfold acxGet
  dsimp only
  rw [hkeys]
  by_cases hr : bisectLeft (items.map (fun p => p.1)) key
      = (items.map (fun p => p.1)).length
  · rw [if_pos (by simp [hr])]
  · have hlt : bisectLeft (items.map (fun p => p.1)) key
        < (items.map (fun p => p.1)).length := lt_of_le_of_ne (by simpa using hb1) hr
    have hne : (items.map (fun p => p.1)).getD
        (bisectLeft (items.map (fun p => p.1)) key) "" ≠ key := by
      rw [List.getD_eq_getElem _ "" hlt]
      have hmem : (items.map (fun p => p.1))[bisectLeft
          (items.map (fun p => p.1)) key] ∈ items.map (fun p => p.1) :=
        List.getElem_mem hlt
      obtain ⟨p, hp, hpe⟩ := List.mem_map.mp hmem
      rw [← hpe]
      exact habs p hp
    rw [if_pos (by
      simp only [Bool.or_eq_true, decide_eq_true_eq]
      right
      exact hne)]

/-- **C6** (amended): the ACX round-trip holds for items supplied in
strictly ascending key order (the writer serializes items in the order
given — it does not sort them, contrary to the spec), with keys of at
most 255 UTF-8 bytes and 32-bit counts and ids: saving and reopening
gives a `get` that returns exactly each item's posting list and the
empty set on absent keys.  On key orders that are not ascending, `get`'s
binary search is run against an unsorted directory and the round-trip
fails (see the counterexample). -/
theorem C6_acx_roundtrip_sorted (k : Nat) (items : List (String × List Nat))
    (hsorted : List.Pairwise (fun u v => u.1.data < v.1.data) items)
    (hklen : ∀ p ∈ items, (utf8Encode p.1).length ≤ 255)
    (hk32 : k < 4294967296)
    (hn32 : items.length < 4294967296)
    (htot : ((items.map (fun p => p.2.length)).sum) < 4294967296)
    (hid32 : ∀ p ∈ items, ∀ v ∈ p.2, v < 4294967296) :
    ∃ bs st, acxSave k items = .ok bs ∧ acxParse bs = .ok st
      ∧ ACXState.k st = k
      ∧ (∀ p ∈ items, acxGet st p.1 = p.2)
      ∧ (∀ key : String, (∀ p ∈ items, p.1 ≠ key) → acxGet st key = []) := by
  have hid32f : ∀ v ∈ (items.map (fun p => p.2)).flatten, v < 4294967296 := by
    intro v hv
    obtain ⟨l, hl, hvl⟩ := List.mem_flatten.mp hv
    obtain ⟨p, hp, hpe⟩ := List.mem_map.mp hl
    refine hid32 p hp v ?_
    rw [hpe]
    exact hvl
  obtain ⟨bs, hsave, hparse⟩ := acxParse_save k items hklen hk32 hn32 htot hid32f
  refine ⟨bs, _, hsave, hparse, rfl, ?_, ?_⟩
  · intro p hp
    obtain ⟨j, hj, hpj⟩ := List.mem_iff_getElem.mp hp
    have hgd : items.getD j ("", []) = p := by
      rw [List.getD_eq_getElem items ("", []) hj]
      exact hpj
    have hget := acxGet_state_mem k items j hsorted hid32 hj
    rw [hgd] at hget
    exact hget
  · intro key habs
    exact acxGet_state_absent k items key hsorted habs

/-- **C6** (witness): two items in ascending key order survive the save
/ open round-trip, and an absent key gives the empty set. -/
theorem C6_witness :
    ∃ bs st, acxSave 2 [("ab", [3]), ("cd", [1, 2])] = .ok bs
      ∧ acxParse bs = .ok st
      ∧ ACXState.k st = 2
      ∧ (∀ p ∈ [("ab", [3]), ("cd", [1, 2])], acxGet st p.1 = p.2)
      ∧ (∀ key : String, (∀ p ∈ [("ab", [3]), ("cd", [1, 2])], p.1 ≠ key) →
          acxGet st key = []) :=
  C6_acx_roundtrip_sorted 2 [("ab", [3]), ("cd", [1, 2])] (by decide) (by decide)
    (by decide) (by decide) (by decide) (by decide)

/-- **C6** (counterexample): the writer does not sort the keys.  Saving
`[("b", [1]), ("a", [2])]` in the given (descending) order and reopening
makes both keys unreachable: `get` returns the empty set for each, so
`open(write(items))` is not `items` for arbitrary key order. -/
theorem C6_unsorted_counterexample :
    (do
      let bs ← acxSave 2 [("b", [1]), ("a", [2])]
      let st ← acxParse bs
      return (acxGet st "b", acxGet st "a"))
    = Except.ok ([], []) := by
  decide
